import Mathlib

/-
  Shallow embedding of the merge-and-resolve engine of the
  vscode-syntax-highlighting-tester repository.

  JavaScript strings are modelled as lists of characters (`Str`), JS numbers
  holding indices as `Nat` (or `Int` where the sentinel -1 occurs), and the
  JS `Map` of semantic rules as an association list with replace-or-append
  insertion.  Fallible operations are modelled with `Option`.
-/

abbrev Str := List Char

-- from src/overlay/merger.ts: metadata field `source: 'textmate' | 'semantic'`
inductive TokSource where
  | textmate
  | semantic
deriving DecidableEq, Repr

-- from src/theme/resolver.ts: ThemeColor
structure ThemeColor where
  foreground : Option Str
  fontStyle : Option Str
deriving DecidableEq, Repr

-- from src/theme/resolver.ts: ThemeRule.scope?: string | string[]
-- `.none` models an absent scope, `.single` a plain string, `.multiple` an array.
inductive ScopeField where
  | none
  | single (s : Str)
  | multiple (ss : List Str)
deriving DecidableEq, Repr

structure ThemeRule where
  scope : ScopeField
  settings : ThemeColor
deriving DecidableEq, Repr

-- from src/theme/resolver.ts: ThemeMatch
structure ThemeMatch where
  color : ThemeColor
  matchedScopeIndex : Int
deriving DecidableEq, Repr

-- state of a loaded ThemeResolver: ordered token rules and the semantic map
structure ThemeState where
  rules : List ThemeRule
  semanticRules : List (Str × ThemeColor)
deriving DecidableEq, Repr

/-- JS `if (!rule.scope) continue` skips an absent scope and an empty-string
scope (both falsy); an array is scanned element by element. -/
def ScopeField.selectors : ScopeField → List Str
  | .none => []
  | .single s => if s.isEmpty then [] else [s]
  | .multiple ss => ss

/-- Selector match from ThemeResolver.resolve: the scope starts with the
selector and either the lengths agree or the next character is a dot. -/
def selMatches (sel scope : Str) : Bool :=
  sel.isPrefixOf scope && (scope.length == sel.length || scope.get? sel.length == some '.')

/-- Inner double loop of ThemeResolver.resolve over one scope string:
fold over all rules and all their selectors, updating the best match when
the score (selector length) is at least the best score so far. -/
def bestForScope (rules : List ThemeRule) (scope : Str) : Option ThemeColor × Int :=
  rules.foldl
    (fun acc rule =>
      rule.scope.selectors.foldl
        (fun acc sel =>
          if selMatches sel scope then
            if (sel.length : Int) ≥ acc.2 then (some rule.settings, sel.length) else acc
          else acc)
        acc)
    (none, -1)

/-- JS `s.includes(sub)`: substring containment. -/
def strIncludes (s sub : Str) : Bool := decide (sub <:+: s)

def defaultFg : Str := "#D4D4D4".toList

def defaultThemeMatch : ThemeMatch :=
  { color := { foreground := some defaultFg, fontStyle := none }, matchedScopeIndex := -1 }

/-- Backwards loop of ThemeResolver.resolve: position `n-1` is examined first. -/
def resolveAux (rules : List ThemeRule) (scopes : List Str) : Nat → ThemeMatch
  | 0 => defaultThemeMatch
  | n + 1 =>
    match (bestForScope rules (scopes.getD n [])).1 with
    | some c => { color := c, matchedScopeIndex := (n : Int) }
    | none => resolveAux rules scopes n

/-- ThemeResolver.resolve: walk the scope stack from innermost (last) to
outermost (first) and return the first position with a matching rule. -/
def ThemeState.resolve (st : ThemeState) (scopes : List Str) : ThemeMatch :=
  resolveAux st.rules scopes scopes.length

/-- Lookup in the semantic-rule map (JS Map.get). -/
def lookupSem (m : List (Str × ThemeColor)) (k : Str) : Option ThemeColor :=
  (m.find? (fun kv => kv.1 == k)).map (fun kv => kv.2)

/-- JS Map.set: replace the value of an existing key, else append. -/
def setSem (m : List (Str × ThemeColor)) (k : Str) (v : ThemeColor) : List (Str × ThemeColor) :=
  if m.any (fun kv => kv.1 == k) then
    m.map (fun kv => if kv.1 == k then (k, v) else kv)
  else
    m ++ [(k, v)]

/-- ThemeResolver.resolveSemantic: type.modifier rules first (in modifier
order), then the bare type, then wildcard star-dot-modifier rules. -/
def ThemeState.resolveSemantic (st : ThemeState) (tokenType : Str) (modifiers : List Str) :
    Option ThemeColor :=
  ((modifiers.findSome? fun m => lookupSem st.semanticRules (tokenType ++ ('.' :: m))).orElse
    fun _ => lookupSem st.semanticRules tokenType).orElse
    fun _ => modifiers.findSome? fun m => lookupSem st.semanticRules ('*' :: '.' :: m)

-- STANDARD_TOKEN_MAP from src/overlay/merger.ts
def STANDARD_TOKEN_MAP : List (Str × List Str) :=
  [ ("comment".toList, ["comment".toList]),
    ("string".toList, ["string".toList]),
    ("keyword".toList, ["keyword.control".toList]),
    ("number".toList, ["constant.numeric".toList]),
    ("regexp".toList, ["constant.regexp".toList]),
    ("operator".toList, ["keyword.operator".toList]),
    ("namespace".toList, ["entity.name.namespace".toList]),
    ("type".toList, ["entity.name.type".toList, "support.type".toList]),
    ("type.defaultLibrary".toList, ["support.type".toList]),
    ("struct".toList, ["entity.name.type.struct".toList]),
    ("class".toList, ["entity.name.type.class".toList, "support.class".toList]),
    ("class.defaultLibrary".toList, ["support.class".toList]),
    ("interface".toList, ["entity.name.type.interface".toList]),
    ("enum".toList, ["entity.name.type.enum".toList]),
    ("typeParameter".toList, ["entity.name.type.parameter".toList]),
    ("function".toList, ["entity.name.function".toList, "support.function".toList]),
    ("function.defaultLibrary".toList, ["support.function".toList]),
    ("member.defaultLibrary".toList, ["support.function".toList]),
    ("method".toList, ["entity.name.function.member".toList, "support.function".toList]),
    ("macro".toList, ["entity.name.function.preprocessor".toList]),
    ("variable".toList, ["variable.other.readwrite".toList, "entity.name.variable".toList]),
    ("variable.readonly".toList, ["variable.other.constant".toList]),
    ("variable.defaultLibrary.readonly".toList, ["support.constant".toList]),
    ("parameter".toList, ["variable.parameter".toList]),
    ("property".toList, ["variable.other.property".toList]),
    ("property.readonly".toList, ["variable.other.constant.property".toList]),
    ("property.defaultLibrary.readonly".toList, ["support.constant.property".toList]),
    ("enumMember".toList, ["variable.other.enummember".toList]),
    ("event".toList, ["variable.other.event".toList]),
    ("decorator".toList, ["entity.name.decorator".toList, "entity.name.function".toList]),
    ("modifier".toList, ["keyword.control".toList]) ]

def stmLookup (k : Str) : Option (List Str) :=
  (STANDARD_TOKEN_MAP.find? (fun kv => kv.1 == k)).map (fun kv => kv.2)

/-- TokenMerger.getStandardFallbackScope from src/overlay/merger.ts. -/
def getStandardFallbackScope (ty : Str) (modifiers : List Str) : Option (List Str) :=
  let defaultLibPart : Str := if modifiers.contains "defaultLibrary".toList then ".defaultLibrary".toList else []
  let readOnlyPart : Str := if modifiers.contains "readonly".toList then ".readonly".toList else []
  let key := ty ++ defaultLibPart ++ readOnlyPart
  (((stmLookup key).orElse fun _ => stmLookup (ty ++ readOnlyPart)).orElse
    fun _ => stmLookup (ty ++ defaultLibPart)).orElse
    fun _ => stmLookup ty

-- from src/overlay/merger.ts: per-character input state
structure SemInfo where
  type : Str
  modifiers : List Str
deriving DecidableEq, Repr

structure TokenInputState where
  tmScopes : List Str
  semantic : Option SemInfo
deriving DecidableEq, Repr

structure ResolvedStyle where
  foreground : Str
  fontStyle : Option Str
  source : TokSource
  scopes : List Str
  scopeColors : List Str
  activeScopeIndex : Int
deriving DecidableEq, Repr

/-- JS `x || '#D4D4D4'` on an optional string: undefined and the empty
string are falsy. -/
def fgOrDefault (o : Option Str) : Str :=
  match o with
  | none => defaultFg
  | some s => if s.isEmpty then defaultFg else s

/-- TokenMerger.resolveScopeColor. -/
def resolveScopeColor (st : ThemeState) (scope : Str) : Str :=
  fgOrDefault (st.resolve [scope]).color.foreground

/-- Trace entry `modifiers: a,b` built in TokenMerger.resolveStyle. -/
def modNote (mods : List Str) : Str :=
  "modifiers: ".toList ++ List.intercalate ",".toList mods

/-- Trace entry `(fallback to standard scope: x, y)`. -/
def fallbackHint (fs : List Str) : Str :=
  "(fallback to standard scope: ".toList ++ List.intercalate ", ".toList fs ++ ")".toList

def tmMarker : Str := "__TM_SCOPES__".toList

def tmFallbackNote : Str := "(fallback to TextMate color)".toList

/-- Index of the last occurrence of a character, scanning left to right. -/
def lastIdxOfAux (c : Char) : Nat → Option Nat → Str → Option Nat
  | _, best, [] => best
  | i, best, x :: rest => lastIdxOfAux c (i + 1) (if x = c then some i else best) rest

/-- Index of the first occurrence of the two-character sequence colon-space. -/
def firstColonSpace : Nat → Str → Option Nat
  | _, [] => none
  | _, [_] => none
  | i, x :: y :: rest => if x = ':' ∧ y = ' ' then some i else firstColonSpace (i + 1) (y :: rest)

/-- The JS regex capture `s.match(/: (.*)\)/)[1]`: the text between the first
colon-space and the last closing parenthesis, when the latter lies at or
after the capture start. -/
def regexCapture (s : Str) : Option Str :=
  match firstColonSpace 0 s, lastIdxOfAux ')' 0 none s with
  | some i, some j => if i + 2 ≤ j then some ((s.drop (i + 2)).take (j - (i + 2))) else none
  | _, _ => none

/-- Per-entry tooltip color of TokenMerger.resolveStyle (the scopeColors map). -/
def scopeColorEntry (st : ThemeState) (s : Str) : Str :=
  if s == tmMarker || "modifiers:".toList.isPrefixOf s then []
  else if "(fallback to standard scope:".toList.isPrefixOf s then
    match regexCapture s with
    | some cap => resolveScopeColor st cap
    | none => []
  else if "(fallback".toList.isPrefixOf s then []
  else resolveScopeColor st s

/-- The SourceKit-LSP hack of TokenMerger.resolveStyle: a `macro` token whose
TextMate scope stack mentions `attribute` is treated as `modifier`. -/
def correctedType (ty : Str) (tmScopes : List Str) : Str :=
  if ty == "macro".toList && tmScopes.any (fun s => strIncludes s "attribute".toList) then
    "modifier".toList
  else ty

/-- Body of TokenMerger.resolveStyle after the semantic branch is taken and
the type correction applied, parameterized by the explicit-rule lookup result
(the code passes `theme.resolveSemantic ty mods` here). -/
def resolveStyleSemAux (st : ThemeState) (tmScopes : List Str) (ty : Str) (mods : List Str)
    (explicitColor : Option ThemeColor) : ResolvedStyle :=
  let tmMatch := st.resolve tmScopes
  let scopes2 : List Str := if mods.length > 0 then [ty, modNote mods] else [ty]
  let fallbackScopes : Option (List Str) :=
    match explicitColor with
    | some _ => none
    | none => getStandardFallbackScope ty mods
  let standardColor : Option ThemeColor :=
    match explicitColor, fallbackScopes with
    | none, some fs => some (st.resolve fs).color
    | _, _ => none
  let dec : List Str × ThemeColor × Int :=
    match explicitColor with
    | some c => (scopes2, c, 0)
    | none =>
      match standardColor with
      | some c =>
        match fallbackScopes with
        | some fs => (scopes2 ++ [fallbackHint fs], c, ((scopes2.length + 1 : Nat) : Int) - 1)
        | none => (scopes2, c, -1)
      | none => (scopes2 ++ [tmFallbackNote], tmMatch.color, -1)
  let scopes3 := dec.1
  let finalColor := dec.2.1
  let tmStartIndex := scopes3.length + 1
  let finalScopes := scopes3 ++ [tmMarker] ++ tmScopes
  let activeIndex : Int :=
    if explicitColor.isNone && standardColor.isNone && tmMatch.matchedScopeIndex ≠ -1 then
      (tmStartIndex : Int) + tmMatch.matchedScopeIndex
    else dec.2.2
  { foreground := fgOrDefault finalColor.foreground
    fontStyle := finalColor.fontStyle
    source := TokSource.semantic
    scopes := finalScopes
    scopeColors := finalScopes.map (scopeColorEntry st)
    activeScopeIndex := activeIndex }

def resolveStyleSemCore (st : ThemeState) (tmScopes : List Str) (ty : Str) (mods : List Str) :
    ResolvedStyle :=
  resolveStyleSemAux st tmScopes ty mods (st.resolveSemantic ty mods)

/-- TokenMerger.resolveStyle. -/
def resolveStyle (st : ThemeState) (inp : TokenInputState) : ResolvedStyle :=
  match inp.semantic with
  | none =>
    let tmMatch := st.resolve inp.tmScopes
    { foreground := fgOrDefault tmMatch.color.foreground
      fontStyle := tmMatch.color.fontStyle
      source := TokSource.textmate
      scopes := inp.tmScopes
      scopeColors := inp.tmScopes.map (resolveScopeColor st)
      activeScopeIndex := tmMatch.matchedScopeIndex }
  | some sem =>
    resolveStyleSemCore st inp.tmScopes (correctedType sem.type inp.tmScopes) sem.modifiers

/-- TokenMerger.resolveStyle including its in-place rewrite of the semantic
type field of its argument (the result state is the mutated input). -/
def resolveStyleM (st : ThemeState) (inp : TokenInputState) : ResolvedStyle × TokenInputState :=
  match inp.semantic with
  | none => (resolveStyle st inp, inp)
  | some sem =>
    (resolveStyle st inp,
     { inp with semantic := some { sem with type := correctedType sem.type inp.tmScopes } })

/-- TokenMerger.areStylesEqual: foreground, font style, source, active index
and the JSON-serialized trace (deep list equality) are compared;
scopeColors is not. -/
def areStylesEqual (a b : ResolvedStyle) : Bool :=
  decide (a.foreground = b.foreground) && decide (a.fontStyle = b.fontStyle) &&
  decide (a.source = b.source) && decide (a.activeScopeIndex = b.activeScopeIndex) &&
  decide (a.scopes = b.scopes)

-- from src/overlay/merger.ts: StyledRange (optional fields are Options)
structure StyledRange where
  startLine : Nat
  startChar : Nat
  endLine : Nat
  endChar : Nat
  text : Str
  foreground : Str
  fontStyle : Option Str
  source : TokSource
  scopes : List Str
  scopeColors : Option (List Str)
  activeScopeIndex : Option Int
deriving DecidableEq, Repr

-- from src/textmate/grammar.ts: Token
structure TmToken where
  line : Nat
  startIndex : Nat
  endIndex : Nat
  scopes : List Str
deriving DecidableEq, Repr

-- one 5-tuple of the flat LSP semantic-token data array
structure SemTok5 where
  deltaLine : Nat
  deltaStart : Nat
  len : Nat
  typeIdx : Nat
  modMask : Nat
deriving DecidableEq, Repr

structure Legend where
  tokenTypes : List Str
  tokenModifiers : List Str
deriving DecidableEq, Repr

-- decoded semantic span within one line (parseSemanticTokens entries)
structure SemSpan where
  start : Nat
  endIdx : Nat
  type : Str
  modifiers : List Str
deriving DecidableEq, Repr

def defaultLegendTypes : List Str :=
  [ "namespace".toList, "type".toList, "class".toList, "enum".toList, "interface".toList,
    "struct".toList, "typeParameter".toList, "parameter".toList, "variable".toList,
    "property".toList, "enumMember".toList, "event".toList, "function".toList,
    "method".toList, "macro".toList, "keyword".toList, "modifier".toList, "comment".toList,
    "string".toList, "number".toList, "regexp".toList, "operator".toList, "decorator".toList ]

/-- TokenMerger.lookupTokenType: a present, non-empty legend entry wins,
else the built-in default legend, else the string `unknown`. -/
def lookupTokenType (idx : Nat) (legend : Option Legend) : Str :=
  let e := defaultLegendTypes.getD idx []
  let dflt := if e.isEmpty then "unknown".toList else e
  match legend with
  | some lg =>
    match lg.tokenTypes.get? idx with
    | some s => if s.isEmpty then dflt else s
    | none => dflt
  | none => dflt

/-- TokenMerger.lookupTokenModifiers: bit `i` of the mask selects the i-th
legend modifier; without a legend the list is empty. -/
def lookupTokenModifiers (modMask : Nat) (legend : Option Legend) : List Str :=
  match legend with
  | some lg =>
    (List.range lg.tokenModifiers.length).filterMap fun i =>
      if modMask.testBit i then some (lg.tokenModifiers.getD i []) else none
  | none => []

/-- Decoding loop of TokenMerger.parseSemanticTokens, producing the per-line
spans in emission order, tagged with their line. -/
def parseSemAux (legend : Option Legend) : Nat → Nat → List SemTok5 → List (Nat × SemSpan)
  | _, _, [] => []
  | line, ch, d :: rest =>
    let line1 := if d.deltaLine > 0 then line + d.deltaLine else line
    let ch1 := if d.deltaLine > 0 then d.deltaStart else ch + d.deltaStart
    (line1,
      { start := ch1, endIdx := ch1 + d.len,
        type := lookupTokenType d.typeIdx legend,
        modifiers := lookupTokenModifiers d.modMask legend }) :: parseSemAux legend line1 ch1 rest

/-- TokenMerger.parseSemanticTokens; a null token result gives the empty map. -/
def parseSemanticTokens (data : Option (List SemTok5)) (legend : Option Legend) :
    List (Nat × SemSpan) :=
  match data with
  | none => []
  | some d => parseSemAux legend 0 0 d

/-- Line splitting by the JS regex `\r\n|\r|\n` (String.prototype.split). -/
def splitLines : Str → List Str
  | [] => [[]]
  | '\r' :: '\n' :: rest => [] :: splitLines rest
  | '\r' :: rest => [] :: splitLines rest
  | '\n' :: rest => [] :: splitLines rest
  | c :: rest =>
    match splitLines rest with
    | [] => [[c]]
    | l :: ls => (c :: l) :: ls

/-- One write of the TextMate loop (B) of TokenMerger.merge: characters of
the token clipped to the line length receive the token scopes. -/
def writeTm (L : Nat) (b : Nat → TokenInputState) (t : TmToken) : Nat → TokenInputState :=
  fun k =>
    if t.startIndex ≤ k ∧ k < t.endIndex ∧ k < L then { b k with tmScopes := t.scopes }
    else b k

/-- One write of the semantic loop (C) of TokenMerger.merge. -/
def writeSem (L : Nat) (b : Nat → TokenInputState) (sp : SemSpan) : Nat → TokenInputState :=
  fun k =>
    if sp.start ≤ k ∧ k < sp.endIdx ∧ k < L then
      { b k with semantic := some { type := sp.type, modifiers := sp.modifiers } }
    else b k

def initialInputState : TokenInputState := { tmScopes := [], semantic := none }

/-- The per-line input state buffer of TokenMerger.merge (steps A to C):
TextMate tokens of the line are applied in order, then its semantic spans. -/
def lineBuffer (tmTokens : List TmToken) (semToks : List (Nat × SemSpan)) (i L : Nat) :
    Nat → TokenInputState :=
  let b1 := (tmTokens.filter fun t => t.line == i).foldl (writeTm L) fun _ => initialInputState
  ((semToks.filter fun p => p.1 == i).map fun p => p.2).foldl (writeSem L) b1

def mkRange (i : Nat) (lineText : Str) (a b : Nat) (cur : ResolvedStyle) : StyledRange :=
  { startLine := i, startChar := a, endLine := i, endChar := b,
    text := (lineText.drop a).take (b - a),
    foreground := cur.foreground, fontStyle := cur.fontStyle, source := cur.source,
    scopes := cur.scopes, scopeColors := some cur.scopeColors,
    activeScopeIndex := some cur.activeScopeIndex }

def emptyLineRange (i : Nat) : StyledRange :=
  { startLine := i, startChar := 0, endLine := i, endChar := 0, text := [],
    foreground := [], fontStyle := none, source := TokSource.textmate, scopes := [],
    scopeColors := some [], activeScopeIndex := none }

/-- Compression loop (D) of TokenMerger.merge over the styles of characters
`k, k+1, ...` (`a` is the start of the current run, `cur` its style). -/
def compressGo (i : Nat) (lineText : Str) : Nat → Nat → ResolvedStyle → List ResolvedStyle →
    List StyledRange
  | _, a, cur, [] => [mkRange i lineText a lineText.length cur]
  | k, a, cur, next :: rest =>
    if areStylesEqual cur next then compressGo i lineText (k + 1) a cur rest
    else mkRange i lineText a k cur :: compressGo i lineText (k + 1) k next rest

/-- The list `[s, s+1, ..., s+n-1]` (character positions of a loop). -/
def natsFrom (s : Nat) : Nat → List Nat
  | 0 => []
  | n + 1 => s :: natsFrom (s + 1) n

/-- Resolved style of character `k` of line `i` (the buffer entry fed to the
compression loop). -/
def lineStyleAt (st : ThemeState) (tmTokens : List TmToken) (semToks : List (Nat × SemSpan))
    (i L k : Nat) : ResolvedStyle :=
  resolveStyle st (lineBuffer tmTokens semToks i L k)

/-- Styles and ranges of one line of TokenMerger.merge. -/
def lineRanges (st : ThemeState) (tmTokens : List TmToken) (semToks : List (Nat × SemSpan))
    (i : Nat) (lineText : Str) : List StyledRange :=
  let L := lineText.length
  if L = 0 then [emptyLineRange i]
  else
    let styleAt := lineStyleAt st tmTokens semToks i L
    compressGo i lineText 1 0 (styleAt 0) ((natsFrom 1 (L - 1)).map styleAt)

def enumFrom (n : Nat) : List Str → List (Nat × Str)
  | [] => []
  | l :: ls => (n, l) :: enumFrom (n + 1) ls

/-- TokenMerger.merge before the bracket-pair pass (steps 1 and 2). -/
def mergeRaw (st : ThemeState) (content : Str) (tmTokens : List TmToken)
    (semData : Option (List SemTok5)) (legend : Option Legend) : List StyledRange :=
  let lines := splitLines content
  let semToks := parseSemanticTokens semData legend
  ((enumFrom 0 lines).map fun p => lineRanges st tmTokens semToks p.1 p.2).flatten

/-- ThemeResolver.getBracketColors: the fixed default palette. -/
def getBracketColors : List Str :=
  ["#FFD700".toList, "#DA70D6".toList, "#179FFF".toList]

def isBracketChar (c : Char) : Bool :=
  c = '(' || c = ')' || c = '[' || c = ']' || c = '{' || c = '}'

/-- Positions and characters of the matches of `[()[]{}]` in a text,
scanning from index `i` (JS matchAll). -/
def bracketMatchesAux (i : Nat) : Str → List (Nat × Char)
  | [] => []
  | c :: rest =>
    if isBracketChar c then (i, c) :: bracketMatchesAux (i + 1) rest
    else bracketMatchesAux (i + 1) rest

/-- Safe-scope test of TokenMerger.applyBracketPairColorization: no comment,
no regex, and either no string scope or an embedded/interpolated context. -/
def isSafeScope (scopes : List Str) : Bool :=
  let hasString := scopes.any fun s => strIncludes s "string".toList
  let hasComment := scopes.any fun s => strIncludes s "comment".toList
  let hasRegex := scopes.any fun s => strIncludes s "regex".toList
  let isEmbedded := scopes.any fun s =>
    strIncludes s "embedded".toList || strIncludes s "interpolation".toList ||
    strIncludes s "punctuation.section.embedded".toList
  !hasComment && !hasRegex && (!hasString || isEmbedded)

def isOpening (c : Char) : Bool := c = '(' || c = '[' || c = '{'

def matchesPair (close top : Char) : Bool :=
  (close = ')' && top = '(') || (close = ']' && top = '[') || (close = '}' && top = '{')

/-- Per-bracket color decision of the bracket pass.  The stack is modelled
with its top at the head.  Opening brackets are colored with the depth
before the push; a matching closing bracket pops and is colored with the
depth after the pop; otherwise the original color is kept, stack untouched. -/
def bracketStep (colors : List Str) (stack : List Char) (c : Char) (origColor : Str) :
    Str × List Char :=
  if isOpening c then
    (colors.getD (stack.length % colors.length) [], c :: stack)
  else
    match stack with
    | top :: rest =>
      if matchesPair c top then (colors.getD (rest.length % colors.length) [], rest)
      else (origColor, stack)
    | [] => (origColor, stack)

def textPiece (token : StyledRange) (a b : Nat) : StyledRange :=
  { token with
      startChar := token.startChar + a,
      endChar := token.startChar + b,
      text := (token.text.drop a).take (b - a) }

def bracketPiece (token : StyledRange) (idx : Nat) (c : Char) (color : Str) : StyledRange :=
  { token with
      startChar := token.startChar + idx,
      endChar := token.startChar + idx + 1,
      text := [c],
      foreground := color,
      scopes := token.scopes ++ ["bracket-pair-colorization".toList],
      scopeColors := token.scopeColors.map fun cs => cs ++ [color],
      activeScopeIndex := some (token.scopes.length : Int) }

/-- Loop of applyBracketPairColorization over the bracket matches of one
token: emits the text before each bracket, then the recolored bracket. -/
def bracketFold (colors : List Str) (token : StyledRange) :
    List (Nat × Char) → Nat → List Char → List StyledRange × Nat × List Char
  | [], lastIdx, stack => ([], lastIdx, stack)
  | (idx, c) :: rest, lastIdx, stack =>
    let pre : List StyledRange := if lastIdx < idx then [textPiece token lastIdx idx] else []
    let step := bracketStep colors stack c token.foreground
    let tail := bracketFold colors token rest (idx + 1) step.2
    (pre ++ bracketPiece token idx c step.1 :: tail.1, tail.2.1, tail.2.2)

/-- Processing of one StyledRange by applyBracketPairColorization: unsafe or
empty or bracket-free tokens pass through; otherwise the token is split
around its brackets and the trailing text is appended. -/
def splitToken (colors : List Str) (stack : List Char) (token : StyledRange) :
    List StyledRange × List Char :=
  if !isSafeScope token.scopes || token.text.length == 0 then ([token], stack)
  else
    let ms := bracketMatchesAux 0 token.text
    if ms.isEmpty then ([token], stack)
    else
      let r := bracketFold colors token ms 0 stack
      let pieces :=
        if r.2.1 < token.text.length then
          r.1 ++ [{ token with
                      startChar := token.startChar + r.2.1,
                      text := token.text.drop r.2.1 }]
        else r.1
      (pieces, r.2.2)

/-- TokenMerger.applyBracketPairColorization: one shared bracket stack is
threaded through the whole emitted range sequence. -/
def applyBPCGo (colors : List Str) (stack : List Char) : List StyledRange → List StyledRange
  | [] => []
  | t :: rest =>
    let r := splitToken colors stack t
    r.1 ++ applyBPCGo colors r.2 rest

def applyBracketPairColorization (tokens : List StyledRange) : List StyledRange :=
  applyBPCGo getBracketColors [] tokens

/-- TokenMerger.merge. -/
def merge (st : ThemeState) (content : Str) (tmTokens : List TmToken)
    (semData : Option (List SemTok5)) (legend : Option Legend) : List StyledRange :=
  applyBracketPairColorization (mergeRaw st content tmTokens semData legend)

/- ===== Theme loading (src/theme/resolver.ts, loadTheme) ===== -/

/-- A theme file that could be read and parsed: its optional `include`
(already resolved to the base theme's key), token rules and semantic rules.
A path mapped to `Option.none` by the file system stands for a missing file
or one whose content JSON5.parse rejects (both throw inside the try block). -/
structure ThemeFileData where
  includePath : Option Str
  tokenColors : List ThemeRule
  semanticTokenColors : List (Str × ThemeColor)

def FSModel := Str → Option ThemeFileData

def emptyThemeState : ThemeState := { rules := [], semanticRules := [] }

/-- ThemeResolver.loadTheme.  The catch block swallows a failed read or
parse: the state is returned unchanged.  Otherwise the base theme named by
`include` is loaded first, then the file's own rules are appended and its
semantic rules inserted.  `fuel` bounds the include chain (the source has no
cycle protection; every acyclic chain is reached with enough fuel). -/
def loadThemeAux (fs : FSModel) : Nat → Str → ThemeState → ThemeState
  | 0, _, st => st
  | fuel + 1, p, st =>
    match fs p with
    | none => st
    | some tf =>
      let st1 :=
        match tf.includePath with
        | some base => loadThemeAux fs fuel base st
        | none => st
      let st2 := { st1 with rules := st1.rules ++ tf.tokenColors }
      { st2 with
          semanticRules :=
            tf.semanticTokenColors.foldl (fun m kv => setSem m kv.1 kv.2) st2.semanticRules }

/-- Theme construction as the ThemeResolver constructor performs it, with an
`Except` layer recording whether an error escapes: the source catches every
load error, so the result is always `Except.ok`. -/
def loadThemeResult (fs : FSModel) (fuel : Nat) (p : Str) : Except Str ThemeState :=
  Except.ok (loadThemeAux fs fuel p emptyThemeState)

/-- Modelled from the spec (section 7): a missing or unparseable theme file
is fatal at startup; loading raises an error instead of proceeding. -/
def loadThemeSpec (fs : FSModel) (fuel : Nat) (p : Str) : Except Str ThemeState :=
  match fs p with
  | none => Except.error ("Failed to load theme".toList)
  | some _ => Except.ok (loadThemeAux fs fuel p emptyThemeState)

/- ===== Claim-side and spec-side comparison definitions ===== -/

/-- Modelled from the claim for C1 and spec section 4.3 step 1: the explicit
semantic lookup restricted to steps 1 and 2 of section 4.2 (type.modifier
rules, then the bare type), never the wildcard rules. -/
def resolveSemanticSteps12 (st : ThemeState) (tokenType : Str) (modifiers : List Str) :
    Option ThemeColor :=
  (modifiers.findSome? fun m => lookupSem st.semanticRules (tokenType ++ ('.' :: m))).orElse
    fun _ => lookupSem st.semanticRules tokenType

/-- The semantic branch of style resolution as claim C1 describes it: tier 1
uses only steps 1 and 2 of the semantic resolver. -/
def resolveStyleSemTier12 (st : ThemeState) (tmScopes : List Str) (ty : Str)
    (mods : List Str) : ResolvedStyle :=
  resolveStyleSemAux st tmScopes ty mods (resolveSemanticSteps12 st ty mods)

/-- All matching (selector length, rule settings) pairs for one scope
string, in rule-scan order. -/
def scoredCandidates (rules : List ThemeRule) (scope : Str) : List (Nat × ThemeColor) :=
  (rules.map fun rule =>
    rule.scope.selectors.filterMap fun sel =>
      if selMatches sel scope then some (sel.length, rule.settings) else none).flatten

/-- Modelled from the spec (section 4.1): the match with the greatest
selector length wins and ties go to the last-scanned rule, stated as a
recursion over the scan order (a later candidate wins when its score is at
least the best of the earlier ones). -/
def lastMaxCand : List (Nat × ThemeColor) → Option (Nat × ThemeColor)
  | [] => none
  | x :: t =>
    match lastMaxCand t with
    | none => some x
    | some y => if y.1 ≥ x.1 then some y else some x

/-- Modelled from the spec (section 4.1): walk the stack from innermost
(last) to outermost (first); return the winning candidate of the first
position that has any match, and the default color with index -1 when no
position matches. -/
def specResolve (rules : List ThemeRule) (scopes : List Str) : ThemeMatch :=
  match (List.range scopes.length).reverse.find?
      (fun i => !(scoredCandidates rules (scopes.getD i [])).isEmpty) with
  | some i =>
    match lastMaxCand (scoredCandidates rules (scopes.getD i [])) with
    | some y => { color := y.2, matchedScopeIndex := (i : Int) }
    | none => defaultThemeMatch
  | none => defaultThemeMatch

/-- Modelled from the spec (section 4.2): try type+defaultLibrary+readonly,
then type+readonly, then type+defaultLibrary, then the bare type, each
suffix part present only when its modifier is, returning the first
populated table entry. -/
def specFallbackScope (ty : Str) (mods : List Str) : Option (List Str) :=
  let hasDL := mods.contains "defaultLibrary".toList
  let hasRO := mods.contains "readonly".toList
  let dl : Str := if hasDL then ".defaultLibrary".toList else []
  let ro : Str := if hasRO then ".readonly".toList else []
  [ty ++ dl ++ ro, ty ++ ro, ty ++ dl, ty].findSome? stmLookup

/-- Character intervals of a range list. -/
def intervalsOf (rs : List StyledRange) : List (Nat × Nat) :=
  rs.map fun r => (r.startChar, r.endChar)

/-- The interval list exactly partitions `[a, L)` in order: each interval
starts where the previous one ended, never runs backwards, and the last one
ends at `L` (so there are no gaps and no overlaps). -/
def partFrom : Nat → List (Nat × Nat) → Nat → Bool
  | a, [], L => a == L
  | a, (s, e) :: t, L => s == a && decide (a ≤ e) && partFrom e t L

/-- The ranges of line `i` of an output list, in emission order. -/
def lineFilter (out : List StyledRange) (i : Nat) : List StyledRange :=
  out.filter fun r => r.startLine == i

def lineOf (content : Str) (i : Nat) : Str := (splitLines content).getD i []

/-- Equality of two StyledRanges on exactly the fields claim C4 lists:
foreground color, font style, provenance, matched index and trace. -/
def rangesStyleEqual (a b : StyledRange) : Bool :=
  decide (a.foreground = b.foreground) && decide (a.fontStyle = b.fontStyle) &&
  decide (a.source = b.source) && decide (a.activeScopeIndex = b.activeScopeIndex) &&
  decide (a.scopes = b.scopes)

/-- No two adjacent ranges of the same line agree on all five compared
style fields. -/
def noAdjacentEqual : List StyledRange → Bool
  | a :: b :: rest =>
    !(a.startLine == b.startLine && rangesStyleEqual a b) && noAdjacentEqual (b :: rest)
  | _ => true

/-- Boundary positions of the compression scan: the positions whose style
differs from the running style (compare compressGo). -/
def bdries : Nat → ResolvedStyle → List ResolvedStyle → List Nat
  | _, _, [] => []
  | k, cur, next :: rest =>
    if areStylesEqual cur next then bdries (k + 1) cur rest
    else k :: bdries (k + 1) next rest

/-- A TextMate token clipped to the length of its line. -/
def clipTmToken (lines : List Str) (t : TmToken) : TmToken :=
  { t with endIndex := min t.endIndex (lines.getD t.line []).length }

/-- A decoded semantic span clipped to a line length. -/
def clipSemSpan (L : Nat) (sp : SemSpan) : SemSpan :=
  { sp with endIdx := min sp.endIdx L }

/-- Lower and upper bounds plus strict ordering of a bracket match list. -/
def bracketsOK (lo len : Nat) : List (Nat × Char) → Prop
  | [] => True
  | (i, _) :: rest => lo ≤ i ∧ i < len ∧ bracketsOK (i + 1) len rest

/- ===== Concrete instances used by counterexamples and witnesses ===== -/

def colorA : ThemeColor := { foreground := some "#FF0000".toList, fontStyle := none }

/-- A theme whose only semantic rule is the wildcard star-dot-readonly rule. -/
def exWildTheme : ThemeState :=
  { rules := [],
    semanticRules :=
      [("*.readonly".toList, { foreground := some "#123456".toList, fontStyle := none })] }

def exWildInput : TokenInputState :=
  { tmScopes := ["source.x".toList],
    semantic := some { type := "variable".toList, modifiers := ["readonly".toList] } }

/-- A theme with no rules at all. -/
def exETheme : ThemeState := { rules := [], semanticRules := [] }

/-- A one-line TextMate token with a plain safe scope. -/
def exTok (a b : Nat) : TmToken :=
  { line := 0, startIndex := a, endIndex := b, scopes := ["source.x".toList] }

/-- The theme of the boundary-safety test: one rule for scope `variable`. -/
def exBoundaryTheme : ThemeState :=
  { rules := [{ scope := ScopeField.single "variable".toList, settings := colorA }],
    semanticRules := [] }

/-- A file system with no readable theme files. -/
def exMissingFS : FSModel := fun _ => none

/-- The selector-fold step of bestForScope on one matching candidate. -/
def candStep (acc : Option ThemeColor × Int) (x : Nat × ThemeColor) :
    Option ThemeColor × Int :=
  if (x.1 : Int) ≥ acc.2 then (some x.2, (x.1 : Int)) else acc

def mergeCand (acc : Option ThemeColor × Int) :
    Option (Nat × ThemeColor) → Option ThemeColor × Int
  | none => acc
  | some x => candStep acc x

/-- The innermost-first walk of specResolve cut off at position count n. -/
def specResolveN (rules : List ThemeRule) (scopes : List Str) (n : Nat) : ThemeMatch :=
  match (List.range n).reverse.find?
      (fun i => !(scoredCandidates rules (scopes.getD i [])).isEmpty) with
  | some i =>
    match lastMaxCand (scoredCandidates rules (scopes.getD i [])) with
    | some y => { color := y.2, matchedScopeIndex := (i : Int) }
    | none => defaultThemeMatch
  | none => defaultThemeMatch

/-- The bracket stack left behind after the bracket pass has processed a
list of tokens. -/
def bpcStack (colors : List Str) (stack : List Char) : List StyledRange → List Char
  | [] => stack
  | t :: rest => bpcStack colors (splitToken colors stack t).2 rest

/- ===== Theorems ===== -/

theorem findSome?_four (f : Str → Option (List Str)) (k1 k2 k3 k4 : Str) :
    [k1, k2, k3, k4].findSome? f =
      (((f k1).orElse fun _ => f k2).orElse fun _ => f k3).orElse fun _ => f k4 := by
  cases h1 : f k1 <;> cases h2 : f k2 <;> cases h3 : f k3 <;> cases h4 : f k4 <;>
    simp [List.findSome?, h1, h2, h3, h4, Option.orElse]

/-- C7: for every semantic type and modifier set, the standard fallback
lookup tries the keys type+defaultLibrary+readonly, type+readonly,
type+defaultLibrary, then the bare type (suffix parts present only when the
modifier is), returning the first populated entry or nothing; checked also
on concrete table entries. -/
theorem C7_standard_fallback_order :
    (∀ ty mods, getStandardFallbackScope ty mods = specFallbackScope ty mods) ∧
    getStandardFallbackScope "variable".toList ["defaultLibrary".toList, "readonly".toList] =
      some ["support.constant".toList] ∧
    getStandardFallbackScope "property".toList ["readonly".toList] =
      some ["variable.other.constant.property".toList] ∧
    getStandardFallbackScope "struct".toList ["readonly".toList] =
      some ["entity.name.type.struct".toList] ∧
    getStandardFallbackScope "unknownT".toList [] = none := by
  refine ⟨?_, by decide, by decide, by decide, by decide⟩
  intro ty mods
  simp only [getStandardFallbackScope, specFallbackScope, findSome?_four]

theorem correctedType_idem (ty : Str) (s : List Str) :
    correctedType (correctedType ty s) s = correctedType ty s := by
  unfold correctedType
  split
  · split <;> rfl
  · rfl

/-- C9: style resolution is deterministic: a second call on the state left
behind by a first call (which may have rewritten the semantic type in
place) returns the same ResolvedStyle, and the state is then stable. -/
theorem C9_resolution_deterministic (st : ThemeState) (inp : TokenInputState) :
    (resolveStyleM st (resolveStyleM st inp).2).1 = (resolveStyleM st inp).1 ∧
    (resolveStyleM st (resolveStyleM st inp).2).2 = (resolveStyleM st inp).2 := by
  cases hs : inp.semantic with
  | none => simp [resolveStyleM, hs]
  | some sem =>
    simp only [resolveStyleM, hs, resolveStyle, resolveStyleSemCore]
    constructor
    · simp [correctedType_idem]
    · simp [correctedType_idem]

/-- C1 is refuted on the code: with a theme whose only semantic rule is the
wildcard `*.readonly`, steps 1 and 2 find nothing, yet resolveStyle still
takes the explicit tier with the wildcard color, provenance semantic and
matched index 0 — the wildcard rules are consulted in tier 1, so the claimed
equality with the steps-1-2-only resolution fails. -/
theorem C1_counterexample :
    (resolveStyle exWildTheme exWildInput ≠
      resolveStyleSemTier12 exWildTheme ["source.x".toList]
        (correctedType "variable".toList ["source.x".toList]) ["readonly".toList]) ∧
    resolveSemanticSteps12 exWildTheme "variable".toList ["readonly".toList] = none ∧
    (resolveStyle exWildTheme exWildInput).activeScopeIndex = 0 ∧
    (resolveStyle exWildTheme exWildInput).foreground = "#123456".toList ∧
    (resolveStyle exWildTheme exWildInput).source = TokSource.semantic := by
  refine ⟨by decide, by decide, by decide, by decide, by decide⟩

/-- C1 (amended): tier 1 of style resolution consults the explicit theme
rules keyed type.modifier (first present modifier wins), then exactly type,
then the wildcard star-dot-modifier rules (in that order); whenever this
explicit lookup succeeds, the resulting style has provenance semantic,
matched index 0, and the rule's color and font style. -/
theorem C1_amended_explicit_tier (st : ThemeState) (stack : List Str) (sem : SemInfo)
    (c : ThemeColor)
    (h : st.resolveSemantic (correctedType sem.type stack) sem.modifiers = some c) :
    (resolveStyle st { tmScopes := stack, semantic := some sem }).source =
      TokSource.semantic ∧
    (resolveStyle st { tmScopes := stack, semantic := some sem }).activeScopeIndex = 0 ∧
    (resolveStyle st { tmScopes := stack, semantic := some sem }).foreground =
      fgOrDefault c.foreground ∧
    (resolveStyle st { tmScopes := stack, semantic := some sem }).fontStyle = c.fontStyle ∧
    (∀ ty mods, st.resolveSemantic ty mods =
      (resolveSemanticSteps12 st ty mods).orElse
        fun _ => mods.findSome? fun m => lookupSem st.semanticRules ('*' :: '.' :: m)) := by
  have hcore : resolveStyle st { tmScopes := stack, semantic := some sem } =
      resolveStyleSemAux st stack (correctedType sem.type stack) sem.modifiers (some c) := by
    simp [resolveStyle, resolveStyleSemCore, h]
  rw [hcore]
  refine ⟨?_, ?_, ?_, ?_, fun ty mods => rfl⟩ <;> simp [resolveStyleSemAux]

/-- C1 witness: the amended theorem applied to the wildcard-only theme. -/
theorem C1_amended_witness :
    (resolveStyle exWildTheme exWildInput).source = TokSource.semantic ∧
    (resolveStyle exWildTheme exWildInput).activeScopeIndex = 0 := by
  have h := C1_amended_explicit_tier exWildTheme ["source.x".toList]
    { type := "variable".toList, modifiers := ["readonly".toList] }
    { foreground := some "#123456".toList, fontStyle := none } (by decide)
  exact ⟨h.1, h.2.1⟩

/-- C5: in the bracket pass, an opening bracket is colored with the stack
depth before its push; a closing bracket whose matching opener is on top
pops and is colored with the depth after the pop; a mismatched or
stack-empty closing bracket keeps its original color and leaves the stack
unchanged; and over the text of three brackets open-open-close in a safe
scope the emitted colors are gold, orchid, orchid. -/
theorem C5_bracket_depth_coloring :
    (∀ stack orig c, isOpening c = true →
      bracketStep getBracketColors stack c orig =
        (getBracketColors.getD (stack.length % 3) [], c :: stack)) ∧
    (∀ stk orig close top, matchesPair close top = true →
      bracketStep getBracketColors (top :: stk) close orig =
        (getBracketColors.getD (stk.length % 3) [], stk)) ∧
    (∀ orig c, isOpening c = false →
      bracketStep getBracketColors [] c orig = (orig, [])) ∧
    (∀ stk top c orig, isOpening c = false → matchesPair c top = false →
      bracketStep getBracketColors (top :: stk) c orig = (orig, top :: stk)) ∧
    (merge exETheme "(()".toList [exTok 0 3] none none).map (fun r => r.foreground) =
      ["#FFD700".toList, "#DA70D6".toList, "#DA70D6".toList] := by
  refine ⟨?_, ?_, ?_, ?_, by decide⟩
  · intro stack orig c hc
    simp [bracketStep, hc, getBracketColors]
  · intro stk orig close top hm
    have hop : isOpening close = false := by
      simp only [matchesPair, Bool.or_eq_true, Bool.and_eq_true, decide_eq_true_eq] at hm
      rcases hm with (⟨h1, _⟩ | ⟨h1, _⟩) | ⟨h1, _⟩ <;> subst h1 <;> decide
    simp [bracketStep, hop, hm, getBracketColors]
  · intro orig c hc
    simp [bracketStep, hc]
  · intro stk top c orig hc hm
    simp [bracketStep, hc, hm]

/-- C5 witness: the bracket-step clauses applied at concrete stacks. -/
theorem C5_bracket_depth_witness :
    bracketStep getBracketColors ['('] '(' "#AA0000".toList =
      ("#DA70D6".toList, ['(', '(']) ∧
    bracketStep getBracketColors ['('] ')' "#AA0000".toList = ("#FFD700".toList, []) ∧
    bracketStep getBracketColors [] ')' "#AA0000".toList = ("#AA0000".toList, []) ∧
    bracketStep getBracketColors ['['] ')' "#AA0000".toList =
      ("#AA0000".toList, ['[']) := by
  have h := C5_bracket_depth_coloring
  exact ⟨by simpa using h.1 ['('] "#AA0000".toList '(' (by decide),
         by simpa using h.2.1 [] "#AA0000".toList ')' '(' (by decide),
         h.2.2.1 "#AA0000".toList ')' (by decide),
         h.2.2.2.1 [] '[' ')' "#AA0000".toList (by decide) (by decide)⟩

/-- C6 is refuted on the code: with a file system on which every read or
parse fails, theme construction still succeeds (the catch block swallows
the error), returning the empty rule set — it differs from the
spec-modelled fatal loader — and a run with that empty rule set proceeds
and produces output. -/
theorem C6_counterexample :
    loadThemeResult exMissingFS 5 "theme.json".toList ≠
      loadThemeSpec exMissingFS 5 "theme.json".toList ∧
    loadThemeResult exMissingFS 5 "theme.json".toList = Except.ok emptyThemeState ∧
    (merge emptyThemeState "a".toList [exTok 0 1] none none).length = 1 := by
  refine ⟨?_, rfl, by decide⟩
  simp [loadThemeResult, loadThemeSpec, exMissingFS]

/-- C6 (amended): a missing or unparseable theme file is not fatal: the
load error is caught inside loadTheme, the state is returned unchanged
(so a top-level failure yields the empty rule set), no error escapes the
constructor, and the run proceeds with that rule set. -/
theorem C6_amended_theme_load_swallowed (fs : FSModel) (fuel : Nat) (p : Str)
    (st : ThemeState) (h : fs p = none) :
    loadThemeAux fs (fuel + 1) p st = st ∧
    loadThemeResult fs (fuel + 1) p = Except.ok emptyThemeState ∧
    (loadThemeResult fs (fuel + 1) p).isOk = true := by
  have haux : ∀ s : ThemeState, loadThemeAux fs (fuel + 1) p s = s := by
    intro s
    unfold loadThemeAux
    rw [h]
  exact ⟨haux st, by simp [loadThemeResult, haux], rfl⟩

/-- C6 witness: the amended theorem applied to the all-missing file system. -/
theorem C6_amended_witness :
    loadThemeAux exMissingFS 3 "theme.json".toList emptyThemeState = emptyThemeState ∧
    loadThemeResult exMissingFS 3 "theme.json".toList = Except.ok emptyThemeState := by
  have h := C6_amended_theme_load_swallowed exMissingFS 2 "theme.json".toList
    emptyThemeState rfl
  exact ⟨h.1, h.2.1⟩

theorem lastMaxCand_cons_ne_none (x : Nat × ThemeColor) (t : List (Nat × ThemeColor)) :
    lastMaxCand (x :: t) ≠ none := by
  unfold lastMaxCand
  cases lastMaxCand t with
  | none => simp
  | some y => by_cases h : x.1 ≤ y.1 <;> simp [h]

theorem selFold_eq (scope : Str) (settings : ThemeColor) (sels : List Str) :
    ∀ acc : Option ThemeColor × Int,
      sels.foldl
        (fun acc sel =>
          if selMatches sel scope then
            if (sel.length : Int) ≥ acc.2 then (some settings, (sel.length : Int)) else acc
          else acc) acc =
      (sels.filterMap fun sel =>
        if selMatches sel scope then some (sel.length, settings) else none).foldl
        candStep acc := by
  induction sels with
  | nil => intro acc; rfl
  | cons sel rest ih =>
    intro acc
    by_cases h : selMatches sel scope = true
    · simp only [List.foldl_cons, List.filterMap_cons, h, if_true]
      rw [ih]
      rfl
    · simp only [List.foldl_cons, List.filterMap_cons, h, Bool.false_eq_true, ite_false,
        if_false]
      rw [ih]

theorem bestForScope_eq_foldCands (rules : List ThemeRule) (scope : Str) :
    ∀ acc : Option ThemeColor × Int,
      rules.foldl
        (fun acc rule =>
          rule.scope.selectors.foldl
            (fun acc sel =>
              if selMatches sel scope then
                if (sel.length : Int) ≥ acc.2 then (some rule.settings, (sel.length : Int))
                else acc
              else acc) acc) acc =
      (scoredCandidates rules scope).foldl candStep acc := by
  induction rules with
  | nil => intro acc; rfl
  | cons rule rest ih =>
    intro acc
    simp only [List.foldl_cons, scoredCandidates, List.map_cons, List.flatten_cons,
      List.foldl_append]
    rw [selFold_eq, ih]
    rfl

theorem foldCands_eq_lastMax (l : List (Nat × ThemeColor)) :
    ∀ acc : Option ThemeColor × Int,
      l.foldl candStep acc = mergeCand acc (lastMaxCand l) := by
  induction l with
  | nil => intro acc; rfl
  | cons x t ih =>
    intro acc
    rw [List.foldl_cons, ih]
    cases ht : lastMaxCand t with
    | none =>
      cases t with
      | nil => rfl
      | cons a b => exact absurd ht (lastMaxCand_cons_ne_none a b)
    | some y =>
      simp only [lastMaxCand, ht, mergeCand, candStep]
      by_cases hyx : y.1 ≥ x.1 <;> by_cases hxa : (x.1 : Int) ≥ acc.2 <;>
        by_cases hya : (y.1 : Int) ≥ acc.2 <;>
        simp [hyx, hxa, hya, ge_iff_le, Nat.cast_le] <;> omega

theorem bestForScope_char (rules : List ThemeRule) (scope : Str) :
    bestForScope rules scope =
      mergeCand (none, -1) (lastMaxCand (scoredCandidates rules scope)) := by
  unfold bestForScope
  rw [bestForScope_eq_foldCands, foldCands_eq_lastMax]

theorem resolveAux_eq_specN (rules : List ThemeRule) (scopes : List Str) :
    ∀ n, resolveAux rules scopes n = specResolveN rules scopes n := by
  intro n
  induction n with
  | zero => rfl
  | succ n ih =>
    have hrev : (List.range (n + 1)).reverse = n :: (List.range n).reverse := by
      simp [List.range_succ]
    unfold resolveAux specResolveN
    rw [bestForScope_char, hrev]
    cases hc : lastMaxCand (scoredCandidates rules (scopes.getD n [])) with
    | none =>
      have hemp : scoredCandidates rules (scopes.getD n []) = [] := by
        cases hs : scoredCandidates rules (scopes.getD n []) with
        | nil => rfl
        | cons a b => rw [hs] at hc; exact absurd hc (lastMaxCand_cons_ne_none a b)
      simp only [mergeCand, List.find?_cons, hemp, List.isEmpty_nil, Bool.not_true]
      rw [ih]
      unfold specResolveN
      rfl
    | some y =>
      have hne : scoredCandidates rules (scopes.getD n []) ≠ [] := by
        intro h
        rw [h] at hc
        cases hc
      have hp : (!(scoredCandidates rules (scopes.getD n [])).isEmpty) = true := by
        cases hs : scoredCandidates rules (scopes.getD n []) with
        | nil => exact absurd hs hne
        | cons a b => rfl
      have hy : ((y.1 : Int) ≥ -1) := by omega
      simp only [mergeCand, candStep, hy, if_true, List.find?_cons, hp, hc]

/-- C3: the scope matcher walks the stack innermost (last) to outermost
(first); a selector S matches scope T iff T starts with S and either the
lengths are equal or the next character of T is a dot; within one position
the greatest selector length wins with ties to the last-scanned rule; the
matched index is the innermost position with any match; with no match the
result is the fixed default color with index -1 — in particular `variable`
does not match `var.something`. -/
theorem C3_scope_matcher_spec (st : ThemeState) (scopes : List Str) :
    st.resolve scopes = specResolve st.rules scopes ∧
    (∀ sel scope, selMatches sel scope =
      (sel.isPrefixOf scope &&
        (scope.length == sel.length || scope.get? sel.length == some '.'))) ∧
    selMatches "variable".toList "var.something".toList = false ∧
    exBoundaryTheme.resolve ["var.something".toList] = defaultThemeMatch ∧
    defaultThemeMatch =
      { color := { foreground := some defaultFg, fontStyle := none },
        matchedScopeIndex := -1 } := by
  refine ⟨?_, fun sel scope => rfl, by decide, by decide, rfl⟩
  show resolveAux st.rules scopes scopes.length = specResolveN st.rules scopes scopes.length
  exact resolveAux_eq_specN st.rules scopes scopes.length

theorem natsFrom_length (s n : Nat) : (natsFrom s n).length = n := by
  induction n generalizing s with
  | zero => rfl
  | succ n ih => simp [natsFrom, ih]

theorem partFrom_append (xs : List (Nat × Nat)) :
    ∀ (a m : Nat) (ys : List (Nat × Nat)) (L : Nat),
      partFrom a xs m = true → partFrom m ys L = true → partFrom a (xs ++ ys) L = true := by
  induction xs with
  | nil =>
    intro a m ys L h1 h2
    have : a = m := by simpa [partFrom] using h1
    simpa [this] using h2
  | cons p t ih =>
    intro a m ys L h1 h2
    obtain ⟨s, e⟩ := p
    simp only [partFrom, Bool.and_eq_true, beq_iff_eq, decide_eq_true_eq] at h1
    simp only [List.cons_append, partFrom, Bool.and_eq_true, beq_iff_eq, decide_eq_true_eq]
    exact ⟨⟨h1.1.1, h1.1.2⟩, ih e m ys L h1.2 h2⟩

theorem compress_partition (i : Nat) (lineText : Str) :
    ∀ (styles : List ResolvedStyle) (k a : Nat) (cur : ResolvedStyle),
      a ≤ k → k + styles.length = lineText.length →
      partFrom a (intervalsOf (compressGo i lineText k a cur styles)) lineText.length = true := by
  intro styles
  induction styles with
  | nil =>
    intro k a cur hak hk
    simp only [List.length_nil, Nat.add_zero] at hk
    have haL : a ≤ lineText.length := by omega
    simp [compressGo, intervalsOf, mkRange, partFrom, haL]
  | cons next rest ih =>
    intro k a cur hak hk
    simp only [compressGo]
    by_cases he : areStylesEqual cur next = true
    · simp only [he, if_true]
      exact ih (k + 1) a cur (by omega) (by simp only [List.length_cons] at hk; omega)
    · simp only [he, Bool.false_eq_true, if_false]
      simp only [intervalsOf, List.map_cons, mkRange, partFrom, Bool.and_eq_true,
        beq_iff_eq, decide_eq_true_eq]
      refine ⟨⟨trivial, hak⟩, ?_⟩
      exact ih (k + 1) k next (by omega) (by simp only [List.length_cons] at hk; omega)

theorem compress_ranges_facts (i : Nat) (lineText : Str) :
    ∀ (styles : List ResolvedStyle) (k a : Nat) (cur : ResolvedStyle),
      a ≤ k → k + styles.length = lineText.length →
      ∀ r ∈ compressGo i lineText k a cur styles,
        r.startLine = i ∧ r.endLine = i ∧ r.startChar ≤ r.endChar ∧
        r.endChar ≤ lineText.length ∧ r.text.length = r.endChar - r.startChar := by
  intro styles
  induction styles with
  | nil =>
    intro k a cur hak hk r hr
    simp only [List.length_nil, Nat.add_zero] at hk
    simp only [compressGo, List.mem_singleton] at hr
    subst hr
    simp only [mkRange, List.length_take, List.length_drop]
    refine ⟨trivial, trivial, by omega, by omega, by omega⟩
  | cons next rest ih =>
    intro k a cur hak hk r hr
    simp only [List.length_cons] at hk
    simp only [compressGo] at hr
    by_cases he : areStylesEqual cur next = true
    · rw [if_pos he] at hr
      exact ih (k + 1) a cur (by omega) (by omega) r hr
    · rw [if_neg (by simp [he])] at hr
      rcases List.mem_cons.mp hr with hr1 | hr2
      · subst hr1
        simp only [mkRange, List.length_take, List.length_drop]
        refine ⟨trivial, trivial, hak, by omega, by omega⟩
      · exact ih (k + 1) k next (by omega) (by omega) r hr2

theorem lineRanges_partition (st : ThemeState) (tm : List TmToken)
    (sem : List (Nat × SemSpan)) (i : Nat) (lineText : Str) :
    partFrom 0 (intervalsOf (lineRanges st tm sem i lineText)) lineText.length = true := by
  unfold lineRanges
  by_cases hL : lineText.length = 0
  · simp [hL, intervalsOf, emptyLineRange, partFrom]
  · simp only [hL, if_false]
    exact compress_partition i lineText _ 1 0 _ (by omega)
      (by simp [natsFrom_length]; omega)

theorem lineRanges_facts (st : ThemeState) (tm : List TmToken)
    (sem : List (Nat × SemSpan)) (i : Nat) (lineText : Str) :
    ∀ r ∈ lineRanges st tm sem i lineText,
      r.startLine = i ∧ r.endLine = i ∧ r.startChar ≤ r.endChar ∧
      r.endChar ≤ lineText.length ∧ r.text.length = r.endChar - r.startChar := by
  unfold lineRanges
  by_cases hL : lineText.length = 0
  · intro r hr
    simp only [hL, if_true, List.mem_singleton] at hr
    subst hr
    simp [emptyLineRange]
  · simp only [hL, if_false]
    exact compress_ranges_facts i lineText _ 1 0 _ (by omega)
      (by simp [natsFrom_length]; omega)

theorem bracketsOK_mono (ms : List (Nat × Char)) (lo lo2 bound : Nat)
    (h : lo2 ≤ lo) (hOK : bracketsOK lo bound ms) : bracketsOK lo2 bound ms := by
  cases ms with
  | nil => trivial
  | cons p rest =>
    obtain ⟨j, c⟩ := p
    obtain ⟨h1, h2, h3⟩ := hOK
    exact ⟨le_trans h h1, h2, h3⟩

theorem bracketsOK_of_matches :
    ∀ (text : Str) (i bound : Nat), i + text.length ≤ bound →
      bracketsOK i bound (bracketMatchesAux i text) := by
  intro text
  induction text with
  | nil => intro i bound _; trivial
  | cons c rest ih =>
    intro i bound hb
    simp only [List.length_cons] at hb
    simp only [bracketMatchesAux]
    by_cases hc : isBracketChar c = true
    · rw [if_pos hc]
      exact ⟨le_refl i, by omega, ih (i + 1) bound (by omega)⟩
    · rw [if_neg (by simp [hc])]
      exact bracketsOK_mono _ (i + 1) i bound (by omega) (ih (i + 1) bound (by omega))

theorem bracketFold_facts (colors : List Str) (tok : StyledRange) :
    ∀ (ms : List (Nat × Char)) (lastIdx : Nat) (stack : List Char),
      bracketsOK lastIdx tok.text.length ms → lastIdx ≤ tok.text.length →
      partFrom (tok.startChar + lastIdx)
        (intervalsOf (bracketFold colors tok ms lastIdx stack).1)
        (tok.startChar + (bracketFold colors tok ms lastIdx stack).2.1) = true ∧
      lastIdx ≤ (bracketFold colors tok ms lastIdx stack).2.1 ∧
      (bracketFold colors tok ms lastIdx stack).2.1 ≤ tok.text.length ∧
      ∀ p ∈ (bracketFold colors tok ms lastIdx stack).1,
        p.startLine = tok.startLine ∧ p.endLine = tok.endLine ∧ p.source = tok.source := by
  intro ms
  induction ms with
  | nil =>
    intro lastIdx stack _ hle
    refine ⟨by simp [bracketFold, intervalsOf, partFrom], le_refl _, hle, ?_⟩
    intro p hp
    simp [bracketFold] at hp
  | cons m rest ih =>
    intro lastIdx stack hOK hle
    obtain ⟨idx, c⟩ := m
    obtain ⟨h1, h2, h3⟩ := hOK
    have ihr := ih (idx + 1) (bracketStep colors stack c tok.foreground).2 h3 (by omega)
    simp only [bracketFold]
    constructor
    · -- partition of pre ++ bracket :: tail
      have hpre : partFrom (tok.startChar + lastIdx)
          (intervalsOf (if lastIdx < idx then [textPiece tok lastIdx idx] else []))
          (tok.startChar + idx) = true := by
        by_cases hli : lastIdx < idx
        · simp [hli, intervalsOf, textPiece, partFrom]
          omega
        · have : lastIdx = idx := by omega
          simp [hli, intervalsOf, partFrom, this]
      have hbr : partFrom (tok.startChar + idx)
          (intervalsOf [bracketPiece tok idx c
            (bracketStep colors stack c tok.foreground).1])
          (tok.startChar + (idx + 1)) = true := by
        simp [intervalsOf, bracketPiece, partFrom]
        omega
      have hchain := partFrom_append _ _ _ _ _ hpre
        (partFrom_append _ _ _ _ _ hbr ihr.1)
      simpa [intervalsOf] using hchain
    · refine ⟨by omega, by omega, ?_⟩
      intro p hp
      simp only [List.mem_append, List.mem_cons] at hp
      rcases hp with hp | hp | hp
      · by_cases hli : lastIdx < idx
        · rw [if_pos hli] at hp
          simp only [List.mem_singleton] at hp
          subst hp
          exact ⟨rfl, rfl, rfl⟩
        · rw [if_neg hli] at hp
          simp at hp
      · subst hp
        exact ⟨rfl, rfl, rfl⟩
      · exact ihr.2.2.2 p hp

theorem splitToken_mem (colors : List Str) (stack : List Char) (tok : StyledRange) :
    ∀ p ∈ (splitToken colors stack tok).1,
      p.startLine = tok.startLine ∧ p.endLine = tok.endLine ∧ p.source = tok.source := by
  simp only [splitToken]
  by_cases h1 : (!isSafeScope tok.scopes || tok.text.length == 0) = true
  · rw [if_pos h1]
    intro p hp
    simp only [List.mem_singleton] at hp
    subst hp
    exact ⟨rfl, rfl, rfl⟩
  · rw [if_neg h1]
    by_cases h2 : (bracketMatchesAux 0 tok.text).isEmpty = true
    · rw [if_pos h2]
      intro p hp
      simp only [List.mem_singleton] at hp
      subst hp
      exact ⟨rfl, rfl, rfl⟩
    · rw [if_neg h2]
      have hbf := bracketFold_facts colors tok (bracketMatchesAux 0 tok.text) 0 stack
        (bracketsOK_of_matches tok.text 0 tok.text.length (by omega)) (by omega)
      intro p hp
      by_cases hlt : (bracketFold colors tok (bracketMatchesAux 0 tok.text) 0 stack).2.1 <
          tok.text.length
      · rw [if_pos hlt] at hp
        simp only [List.mem_append, List.mem_singleton] at hp
        rcases hp with hp | hp
        · exact hbf.2.2.2 p hp
        · subst hp
          exact ⟨rfl, rfl, rfl⟩
      · rw [if_neg hlt] at hp
        exact hbf.2.2.2 p hp

theorem splitToken_partition (colors : List Str) (stack : List Char) (tok : StyledRange)
    (hw : tok.text.length = tok.endChar - tok.startChar)
    (hse : tok.startChar ≤ tok.endChar) :
    partFrom tok.startChar (intervalsOf (splitToken colors stack tok).1) tok.endChar
      = true := by
  simp only [splitToken]
  by_cases h1 : (!isSafeScope tok.scopes || tok.text.length == 0) = true
  · rw [if_pos h1]
    simp [intervalsOf, partFrom, hse]
  · rw [if_neg h1]
    by_cases h2 : (bracketMatchesAux 0 tok.text).isEmpty = true
    · rw [if_pos h2]
      simp [intervalsOf, partFrom, hse]
    · rw [if_neg h2]
      have hbf := bracketFold_facts colors tok (bracketMatchesAux 0 tok.text) 0 stack
        (bracketsOK_of_matches tok.text 0 tok.text.length (by omega)) (by omega)
      have hp1 := hbf.1
      rw [Nat.add_zero] at hp1
      by_cases hlt : (bracketFold colors tok (bracketMatchesAux 0 tok.text) 0 stack).2.1 <
          tok.text.length
      · rw [if_pos hlt]
        have htail : partFrom
            (tok.startChar + (bracketFold colors tok (bracketMatchesAux 0 tok.text) 0
              stack).2.1)
            (intervalsOf [{ tok with
              startChar := tok.startChar +
                (bracketFold colors tok (bracketMatchesAux 0 tok.text) 0 stack).2.1,
              text := tok.text.drop
                (bracketFold colors tok (bracketMatchesAux 0 tok.text) 0 stack).2.1 }])
            tok.endChar = true := by
          simp only [intervalsOf, List.map_cons, List.map_nil, partFrom]
          simp
          omega
        have := partFrom_append _ _ _ _ _ hp1 htail
        simpa [intervalsOf] using this
      · rw [if_neg hlt]
        have hEnd : tok.startChar +
            (bracketFold colors tok (bracketMatchesAux 0 tok.text) 0 stack).2.1 =
            tok.endChar := by
          have := hbf.2.2.1
          omega
        rw [hEnd] at hp1
        exact hp1

theorem applyBPCGo_partition (colors : List Str) :
    ∀ (ts : List StyledRange) (stack : List Char) (a L : Nat),
      partFrom a (intervalsOf ts) L = true →
      (∀ t ∈ ts, t.text.length = t.endChar - t.startChar) →
      partFrom a (intervalsOf (applyBPCGo colors stack ts)) L = true := by
  intro ts
  induction ts with
  | nil => intro stack a L hp _; exact hp
  | cons t rest ih =>
    intro stack a L hp hw
    simp only [intervalsOf, List.map_cons, partFrom, Bool.and_eq_true, beq_iff_eq,
      decide_eq_true_eq] at hp
    obtain ⟨⟨hsa, hae⟩, hrest⟩ := hp
    have hstp := splitToken_partition colors stack t
      (hw t (List.mem_cons_self t rest)) (by omega)
    simp only [applyBPCGo, intervalsOf, List.map_append]
    refine partFrom_append _ _ t.endChar _ _ ?_ ?_
    · rw [hsa] at hstp
      simpa [intervalsOf] using hstp
    · exact ih _ t.endChar L hrest (fun x hx => hw x (List.mem_cons_of_mem t hx))

theorem applyBPCGo_mem (colors : List Str) :
    ∀ (ts : List StyledRange) (stack : List Char) (p : StyledRange),
      p ∈ applyBPCGo colors stack ts →
      ∃ t ∈ ts, p.startLine = t.startLine ∧ p.endLine = t.endLine ∧ p.source = t.source := by
  intro ts
  induction ts with
  | nil => intro stack p hp; simp [applyBPCGo] at hp
  | cons t rest ih =>
    intro stack p hp
    simp only [applyBPCGo, List.mem_append] at hp
    rcases hp with hp | hp
    · exact ⟨t, List.mem_cons_self t rest, splitToken_mem colors stack t p hp⟩
    · obtain ⟨u, hu, hq⟩ := ih _ p hp
      exact ⟨u, List.mem_cons_of_mem t hu, hq⟩

theorem applyBPCGo_append (colors : List Str) :
    ∀ (xs ys : List StyledRange) (stack : List Char),
      applyBPCGo colors stack (xs ++ ys) =
        applyBPCGo colors stack xs ++ applyBPCGo colors (bpcStack colors stack xs) ys := by
  intro xs
  induction xs with
  | nil => intro ys stack; rfl
  | cons t rest ih =>
    intro ys stack
    simp only [List.cons_append, applyBPCGo, bpcStack, List.append_eq, ih,
      List.append_assoc]

theorem applyBPCGo_empty_line (colors : List Str) (stack : List Char) (i : Nat) :
    applyBPCGo colors stack [emptyLineRange i] = [emptyLineRange i] := rfl

theorem lineFilter_append (xs ys : List StyledRange) (i : Nat) :
    lineFilter (xs ++ ys) i = lineFilter xs i ++ lineFilter ys i := by
  simp [lineFilter]

theorem lineFilter_all_self (xs : List StyledRange) (i : Nat)
    (h : ∀ r ∈ xs, r.startLine = i) : lineFilter xs i = xs :=
  List.filter_eq_self.mpr fun r hr => by simp [h r hr]

theorem lineFilter_all_other (xs : List StyledRange) (n i : Nat)
    (h : ∀ r ∈ xs, r.startLine = n) (hne : n ≠ i) : lineFilter xs i = [] := by
  apply List.filter_eq_nil_iff.mpr
  intro r hr
  simp [h r hr, hne]

theorem mergeBPC_lines (st : ThemeState) (tm : List TmToken) (sem : List (Nat × SemSpan))
    (colors : List Str) (i : Nat) :
    ∀ (lines : List Str) (n : Nat) (stack : List Char),
      ((i < n ∨ n + lines.length ≤ i) →
        lineFilter (applyBPCGo colors stack
          (((enumFrom n lines).map fun p => lineRanges st tm sem p.1 p.2).flatten)) i = []) ∧
      (n ≤ i → i < n + lines.length →
        partFrom 0 (intervalsOf (lineFilter (applyBPCGo colors stack
          (((enumFrom n lines).map fun p => lineRanges st tm sem p.1 p.2).flatten)) i))
          (lines.getD (i - n) []).length = true ∧
        ((lines.getD (i - n) []).length = 0 →
          lineFilter (applyBPCGo colors stack
            (((enumFrom n lines).map fun p => lineRanges st tm sem p.1 p.2).flatten)) i =
            [emptyLineRange i])) := by
  intro lines
  induction lines with
  | nil =>
    intro n stack
    constructor
    · intro _; rfl
    · intro h1 h2
      simp only [List.length_nil, Nat.add_zero] at h2
      exact absurd h2 (by omega)
  | cons text rest ih =>
    intro n stack
    have hblock : ∀ r ∈ lineRanges st tm sem n text, r.startLine = n :=
      fun r hr => (lineRanges_facts st tm sem n text r hr).1
    have hBPCblock : ∀ p ∈ applyBPCGo colors stack (lineRanges st tm sem n text),
        p.startLine = n := by
      intro p hp
      obtain ⟨t, ht, hline, _, _⟩ := applyBPCGo_mem colors _ stack p hp
      rw [hline]
      exact hblock t ht
    have hsplit :
        lineFilter (applyBPCGo colors stack
          (((enumFrom n (text :: rest)).map fun p => lineRanges st tm sem p.1 p.2).flatten)) i
        = lineFilter (applyBPCGo colors stack (lineRanges st tm sem n text)) i ++
          lineFilter (applyBPCGo colors
            (bpcStack colors stack (lineRanges st tm sem n text))
            (((enumFrom (n + 1) rest).map fun p => lineRanges st tm sem p.1 p.2).flatten))
            i := by
      rw [show enumFrom n (text :: rest) = (n, text) :: enumFrom (n + 1) rest from rfl]
      rw [List.map_cons, List.flatten_cons, applyBPCGo_append, lineFilter_append]
    constructor
    · intro h
      rw [hsplit]
      rw [lineFilter_all_other _ n i hBPCblock (by simp at h; omega)]
      rw [((ih (n + 1) (bpcStack colors stack (lineRanges st tm sem n text))).1
        (by simp at h ⊢; omega))]
      rfl
    · intro h1 h2
      by_cases hin : i = n
      · subst hin
        have hRempty := (ih (i + 1) (bpcStack colors stack (lineRanges st tm sem i text))).1
          (by omega)
        rw [hsplit, lineFilter_all_self _ i hBPCblock, hRempty, List.append_nil]
        have hgd : ((text :: rest).getD (i - i) []) = text := by simp
        rw [hgd]
        constructor
        · exact applyBPCGo_partition colors _ stack 0 text.length
            (lineRanges_partition st tm sem i text)
            (fun t ht => (lineRanges_facts st tm sem i text t ht).2.2.2.2)
        · intro htext0
          have hlr : lineRanges st tm sem i text = [emptyLineRange i] := by
            simp [lineRanges, htext0]
          rw [hlr, applyBPCGo_empty_line]
      · have hni : n + 1 ≤ i := by omega
        have hR := (ih (n + 1) (bpcStack colors stack (lineRanges st tm sem n text))).2
          hni (by simp at h2 ⊢; omega)
        rw [hsplit, lineFilter_all_other _ n i hBPCblock (Ne.symm hin), List.nil_append]
        have hgd : ((text :: rest).getD (i - n) []) = rest.getD (i - (n + 1)) [] := by
          have hs : i - n = (i - (n + 1)) + 1 := by omega
          rw [hs, List.getD_cons_succ]
        rw [hgd]
        exact hR

/-- C2: for every input text and every line of length L in it, the
StyledRanges that merge emits for that line (after the bracket pass) have
character intervals that union to exactly the interval from 0 to L with no
gaps and no overlaps, and a line of length 0 yields exactly one zero-length
range. -/
theorem C2_partition (st : ThemeState) (content : Str) (tm : List TmToken)
    (semData : Option (List SemTok5)) (legend : Option Legend) (i : Nat)
    (h : i < (splitLines content).length) :
    partFrom 0 (intervalsOf (lineFilter (merge st content tm semData legend) i))
      (lineOf content i).length = true ∧
    ((lineOf content i).length = 0 →
      lineFilter (merge st content tm semData legend) i = [emptyLineRange i]) := by
  have hm := (mergeBPC_lines st tm (parseSemanticTokens semData legend) getBracketColors i
    (splitLines content) 0 []).2 (by omega) (by omega)
  have hid : merge st content tm semData legend =
      applyBPCGo getBracketColors []
        (((enumFrom 0 (splitLines content)).map
          fun p => lineRanges st tm (parseSemanticTokens semData legend) p.1 p.2).flatten) :=
    rfl
  rw [hid]
  simpa [lineOf] using hm

/-- C2 witness: the partition property at a concrete two-line input. -/
theorem C2_partition_witness :
    partFrom 0
      (intervalsOf (lineFilter (merge exETheme "a\n(".toList [exTok 0 1] none none) 0))
      (lineOf "a\n(".toList 0).length = true ∧
    partFrom 0
      (intervalsOf (lineFilter (merge exETheme "a\n(".toList [exTok 0 1] none none) 1))
      (lineOf "a\n(".toList 1).length = true := by
  exact ⟨(C2_partition exETheme "a\n(".toList [exTok 0 1] none none 0 (by decide)).1,
         (C2_partition exETheme "a\n(".toList [exTok 0 1] none none 1 (by decide)).1⟩

theorem writeTm_clip (lines : List Str) (b : Nat → TokenInputState) (t : TmToken) :
    writeTm (lines.getD t.line []).length b (clipTmToken lines t) =
      writeTm (lines.getD t.line []).length b t := by
  funext k
  simp only [writeTm, clipTmToken]
  by_cases h : t.startIndex ≤ k ∧ k < t.endIndex ∧ k < (lines.getD t.line []).length
  · rw [if_pos h, if_pos (by omega)]
  · rw [if_neg h, if_neg (by omega)]

theorem foldl_writeTm_clip (lines : List Str) (i : Nat) :
    ∀ (ts : List TmToken) (b : Nat → TokenInputState),
      (∀ t ∈ ts, t.line = i) →
      (ts.map (clipTmToken lines)).foldl (writeTm (lines.getD i []).length) b =
        ts.foldl (writeTm (lines.getD i []).length) b := by
  intro ts
  induction ts with
  | nil => intro b _; rfl
  | cons t rest ih =>
    intro b hline
    simp only [List.map_cons, List.foldl_cons]
    have hl : t.line = i := hline t (List.mem_cons_self t rest)
    have hw : writeTm (lines.getD i []).length b (clipTmToken lines t) =
        writeTm (lines.getD i []).length b t := by
      have := writeTm_clip lines b t
      rw [hl] at this
      exact this
    rw [hw]
    exact ih _ (fun x hx => hline x (List.mem_cons_of_mem t hx))

theorem lineBuffer_clip (lines : List Str) (tm : List TmToken)
    (sem : List (Nat × SemSpan)) (i : Nat) :
    lineBuffer (tm.map (clipTmToken lines)) sem i (lines.getD i []).length =
      lineBuffer tm sem i (lines.getD i []).length := by
  unfold lineBuffer
  have hfc : (tm.map (clipTmToken lines)).filter (fun t => t.line == i) =
      (tm.filter (fun t => t.line == i)).map (clipTmToken lines) := by
    rw [List.filter_map]
    rfl
  rw [hfc, foldl_writeTm_clip lines i (tm.filter fun t => t.line == i) _
    (fun t ht => by simpa using (List.of_mem_filter ht))]

theorem enumFrom_mem (ls : List Str) :
    ∀ (n : Nat) (p : Nat × Str), p ∈ enumFrom n ls → n ≤ p.1 ∧ p.2 = ls.getD (p.1 - n) [] := by
  induction ls with
  | nil => intro n p hp; simp [enumFrom] at hp
  | cons l rest ih =>
    intro n p hp
    simp only [enumFrom, List.mem_cons] at hp
    rcases hp with hp | hp
    · subst hp
      simp
    · obtain ⟨h1, h2⟩ := ih (n + 1) p hp
      refine ⟨by omega, ?_⟩
      rw [h2]
      have : p.1 - n = (p.1 - (n + 1)) + 1 := by omega
      rw [this, List.getD_cons_succ]

theorem mergeRaw_clip (st : ThemeState) (content : Str) (tm : List TmToken)
    (semData : Option (List SemTok5)) (legend : Option Legend) :
    mergeRaw st content (tm.map (clipTmToken (splitLines content))) semData legend =
      mergeRaw st content tm semData legend := by
  simp only [mergeRaw]
  congr 1
  apply List.map_congr_left
  intro p hp
  obtain ⟨-, h2⟩ := enumFrom_mem (splitLines content) 0 p hp
  rw [Nat.sub_zero] at h2
  unfold lineRanges
  by_cases hL : p.2.length = 0
  · simp [hL]
  · simp only [hL, if_false]
    have hbuf : lineBuffer (tm.map (clipTmToken (splitLines content)))
        (parseSemanticTokens semData legend) p.1 p.2.length =
        lineBuffer tm (parseSemanticTokens semData legend) p.1 p.2.length := by
      have := lineBuffer_clip (splitLines content) tm
        (parseSemanticTokens semData legend) p.1
      rw [← h2] at this
      exact this
    have hsty : lineStyleAt st (tm.map (clipTmToken (splitLines content)))
        (parseSemanticTokens semData legend) p.1 p.2.length =
        lineStyleAt st tm (parseSemanticTokens semData legend) p.1 p.2.length := by
      funext k
      simp only [lineStyleAt, hbuf]
    rw [hsty]

/-- C10: a lexical token or decoded semantic span extending past the end of
its line is silently clipped: every buffer write is guarded by the line
length, merging with clipped tokens gives the identical output, and the
per-line partition holds for arbitrary (even overrunning) token inputs. -/
theorem C10_overrun_clipped (L : Nat) (b : Nat → TokenInputState) (t : TmToken)
    (sp : SemSpan) (k : Nat) (hk : L ≤ k) :
    writeTm L b t k = b k ∧
    writeSem L b sp k = b k ∧
    (∀ st content tm semData legend,
      merge st content tm semData legend =
        merge st content (tm.map (clipTmToken (splitLines content))) semData legend) ∧
    (∀ (st : ThemeState) (content : Str) (tm : List TmToken)
       (semData : Option (List SemTok5)) (legend : Option Legend) (i : Nat),
      i < (splitLines content).length →
      partFrom 0 (intervalsOf (lineFilter (merge st content tm semData legend) i))
        (lineOf content i).length = true) := by
  refine ⟨?_, ?_, ?_, ?_⟩
  · simp only [writeTm]
    rw [if_neg (by omega)]
  · simp only [writeSem]
    rw [if_neg (by omega)]
  · intro st content tm semData legend
    unfold merge
    rw [mergeRaw_clip]
  · intro st content tm semData legend i h
    have hm := (mergeBPC_lines st tm (parseSemanticTokens semData legend) getBracketColors i
      (splitLines content) 0 []).2 (by omega) (by omega)
    have hid : merge st content tm semData legend =
        applyBPCGo getBracketColors []
          (((enumFrom 0 (splitLines content)).map
            fun p => lineRanges st tm (parseSemanticTokens semData legend) p.1 p.2).flatten) :=
      rfl
    rw [hid]
    simpa [lineOf] using hm.1

/-- C10 witness: clipping at a concrete overrunning token. -/
theorem C10_overrun_witness :
    writeTm 1 (fun _ => initialInputState) (exTok 0 5) 3 = initialInputState ∧
    merge exETheme "a".toList [exTok 0 5] none none =
      merge exETheme "a".toList [exTok 0 1] none none := by
  have h := C10_overrun_clipped 1 (fun _ => initialInputState) (exTok 0 5)
    { start := 0, endIdx := 5, type := [], modifiers := [] } 3 (by omega)
  refine ⟨h.1, ?_⟩
  have h3 := h.2.2.1 exETheme "a".toList [exTok 0 5] none none
  rw [h3]
  rfl

theorem foldl_writeTm_semantic (L : Nat) :
    ∀ (ts : List TmToken) (b : Nat → TokenInputState) (k : Nat),
      ((ts.foldl (writeTm L) b) k).semantic = (b k).semantic := by
  intro ts
  induction ts with
  | nil => intro b k; rfl
  | cons t rest ih =>
    intro b k
    rw [List.foldl_cons, ih]
    simp only [writeTm]
    split <;> rfl

theorem lineBuffer_none_semantic (tm : List TmToken) (i L k : Nat) :
    (lineBuffer tm [] i L k).semantic = none := by
  unfold lineBuffer
  rw [show (([] : List (Nat × SemSpan)).filter fun p => p.1 == i) = [] from rfl]
  simp only [List.map_nil, List.foldl_nil]
  rw [foldl_writeTm_semantic]
  rfl

theorem resolveStyle_none_source (st : ThemeState) (inp : TokenInputState)
    (h : inp.semantic = none) : (resolveStyle st inp).source = TokSource.textmate := by
  simp [resolveStyle, h]

theorem compress_source (i : Nat) (text : Str) :
    ∀ (styles : List ResolvedStyle) (k a : Nat) (cur : ResolvedStyle),
      cur.source = TokSource.textmate →
      (∀ s ∈ styles, s.source = TokSource.textmate) →
      ∀ r ∈ compressGo i text k a cur styles, r.source = TokSource.textmate := by
  intro styles
  induction styles with
  | nil =>
    intro k a cur hcur _ r hr
    simp only [compressGo, List.mem_singleton] at hr
    subst hr
    exact hcur
  | cons next rest ih =>
    intro k a cur hcur hsty r hr
    simp only [compressGo] at hr
    by_cases he : areStylesEqual cur next = true
    · rw [if_pos he] at hr
      exact ih (k + 1) a cur hcur (fun s hs => hsty s (List.mem_cons_of_mem next hs)) r hr
    · rw [if_neg (by simp [he])] at hr
      rcases List.mem_cons.mp hr with hr1 | hr2
      · subst hr1
        exact hcur
      · exact ih (k + 1) k next (hsty next (List.mem_cons_self next rest))
          (fun s hs => hsty s (List.mem_cons_of_mem next hs)) r hr2

theorem lineRanges_source (st : ThemeState) (tm : List TmToken) (i : Nat) (text : Str) :
    ∀ r ∈ lineRanges st tm [] i text, r.source = TokSource.textmate := by
  unfold lineRanges
  by_cases hL : text.length = 0
  · intro r hr
    simp only [hL, if_true, List.mem_singleton] at hr
    subst hr
    rfl
  · simp only [hL, if_false]
    apply compress_source
    · exact resolveStyle_none_source st _ (lineBuffer_none_semantic tm i text.length 0)
    · intro s hs
      obtain ⟨k, _, hk⟩ := List.mem_map.mp hs
      rw [← hk]
      exact resolveStyle_none_source st _ (lineBuffer_none_semantic tm i text.length k)

/-- C8: with an absent (null) semantic-tokens result, merge still produces
output for every line; every emitted range has provenance textmate; and the
per-character resolution is exactly the lexical scope-matcher result on the
scope stack. -/
theorem C8_lexical_only_recovery (st : ThemeState) (content : Str) (tm : List TmToken)
    (legend : Option Legend) :
    (∀ r ∈ merge st content tm none legend, r.source = TokSource.textmate) ∧
    (∀ i, i < (splitLines content).length →
      lineFilter (merge st content tm none legend) i ≠ []) ∧
    (∀ stack : List Str, resolveStyle st { tmScopes := stack, semantic := none } =
      { foreground := fgOrDefault (st.resolve stack).color.foreground,
        fontStyle := (st.resolve stack).color.fontStyle,
        source := TokSource.textmate,
        scopes := stack,
        scopeColors := stack.map (resolveScopeColor st),
        activeScopeIndex := (st.resolve stack).matchedScopeIndex }) := by
  refine ⟨?_, ?_, fun stack => rfl⟩
  · intro r hr
    have hid : merge st content tm none legend =
        applyBPCGo getBracketColors []
          (((enumFrom 0 (splitLines content)).map
            fun p => lineRanges st tm (parseSemanticTokens none legend) p.1 p.2).flatten) :=
      rfl
    rw [hid] at hr
    obtain ⟨t, ht, -, -, hsrc⟩ := applyBPCGo_mem getBracketColors _ [] r hr
    rw [hsrc]
    obtain ⟨bl, hbl, htb⟩ := List.mem_flatten.mp ht
    obtain ⟨p, -, hpb⟩ := List.mem_map.mp hbl
    rw [← hpb] at htb
    have hsem : parseSemanticTokens none legend = ([] : List (Nat × SemSpan)) := rfl
    rw [hsem] at htb
    exact lineRanges_source st tm p.1 p.2 t htb
  · intro i hi hnil
    have hm := (mergeBPC_lines st tm (parseSemanticTokens none legend) getBracketColors i
      (splitLines content) 0 []).2 (by omega) (by omega)
    have hid : merge st content tm none legend =
        applyBPCGo getBracketColors []
          (((enumFrom 0 (splitLines content)).map
            fun p => lineRanges st tm (parseSemanticTokens none legend) p.1 p.2).flatten) :=
      rfl
    rw [hid] at hnil
    by_cases hL : ((splitLines content).getD (i - 0) []).length = 0
    · have h2 := hm.2 hL
      rw [hnil] at h2
      cases h2
    · have h1 := hm.1
      rw [hnil] at h1
      have hz : ((0 : Nat) == ((splitLines content).getD (i - 0) []).length) = true := h1
      exact hL (beq_iff_eq.mp hz).symm

/-- C8 witness: the lexical-only conjuncts applied at a concrete input. -/
theorem C8_lexical_only_witness :
    ((merge exETheme "a".toList [exTok 0 1] none none).headD (emptyLineRange 0)).source =
      TokSource.textmate ∧
    lineFilter (merge exETheme "a".toList [exTok 0 1] none none) 0 ≠ [] := by
  have h := C8_lexical_only_recovery exETheme "a".toList [exTok 0 1] none
  exact ⟨h.1 _ (by decide), h.2.1 0 (by decide)⟩

theorem areStylesEqual_refl (a : ResolvedStyle) : areStylesEqual a a = true := by
  simp [areStylesEqual]

theorem areStylesEqual_symm (a b : ResolvedStyle) (h : areStylesEqual a b = true) :
    areStylesEqual b a = true := by
  simp only [areStylesEqual, Bool.and_eq_true, decide_eq_true_eq] at h ⊢
  obtain ⟨⟨⟨⟨h1, h2⟩, h3⟩, h4⟩, h5⟩ := h
  exact ⟨⟨⟨⟨h1.symm, h2.symm⟩, h3.symm⟩, h4.symm⟩, h5.symm⟩

theorem areStylesEqual_trans (a b c : ResolvedStyle) (h1 : areStylesEqual a b = true)
    (h2 : areStylesEqual b c = true) : areStylesEqual a c = true := by
  simp only [areStylesEqual, Bool.and_eq_true, decide_eq_true_eq] at h1 h2 ⊢
  obtain ⟨⟨⟨⟨a1, a2⟩, a3⟩, a4⟩, a5⟩ := h1
  obtain ⟨⟨⟨⟨b1, b2⟩, b3⟩, b4⟩, b5⟩ := h2
  exact ⟨⟨⟨⟨a1.trans b1, a2.trans b2⟩, a3.trans b3⟩, a4.trans b4⟩, a5.trans b5⟩

theorem mkRange_styleEqual (i i2 : Nat) (t t2 : Str) (a b a2 b2 : Nat)
    (c c2 : ResolvedStyle) :
    rangesStyleEqual (mkRange i t a b c) (mkRange i2 t2 a2 b2 c2) = areStylesEqual c c2 := by
  simp [rangesStyleEqual, areStylesEqual, mkRange]

theorem compress_noAdj (i : Nat) (text : Str) :
    ∀ (styles : List ResolvedStyle) (k a : Nat) (cur : ResolvedStyle),
      noAdjacentEqual (compressGo i text k a cur styles) = true ∧
      rangesStyleEqual ((compressGo i text k a cur styles).headD (emptyLineRange 0))
        (mkRange i text 0 0 cur) = true := by
  intro styles
  induction styles with
  | nil =>
    intro k a cur
    refine ⟨rfl, ?_⟩
    simp only [compressGo, List.headD_cons]
    rw [mkRange_styleEqual]
    exact areStylesEqual_refl cur
  | cons next rest ih =>
    intro k a cur
    simp only [compressGo]
    by_cases he : areStylesEqual cur next = true
    · rw [if_pos he]
      exact ih (k + 1) a cur
    · rw [if_neg he]
      have ihn := ih (k + 1) k next
      cases hrec : compressGo i text (k + 1) k next rest with
      | nil =>
        constructor
        · rfl
        · simp only [List.headD_cons]
          rw [mkRange_styleEqual]
          exact areStylesEqual_refl cur
      | cons y t =>
        rw [hrec] at ihn
        simp only [List.headD_cons] at ihn
        constructor
        · simp only [noAdjacentEqual]
          have hyne : rangesStyleEqual (mkRange i text a k cur) y = false := by
            cases hq : rangesStyleEqual (mkRange i text a k cur) y with
            | false => rfl
            | true =>
              have hcy : rangesStyleEqual (mkRange i text a k cur) (mkRange i text 0 0 next)
                  = true := by
                simp only [rangesStyleEqual, Bool.and_eq_true, decide_eq_true_eq] at hq ihn ⊢
                obtain ⟨⟨⟨⟨q1, q2⟩, q3⟩, q4⟩, q5⟩ := hq
                obtain ⟨⟨⟨⟨w1, w2⟩, w3⟩, w4⟩, w5⟩ := ihn.2
                exact ⟨⟨⟨⟨q1.trans w1, q2.trans w2⟩, q3.trans w3⟩, q4.trans w4⟩, q5.trans w5⟩
              rw [mkRange_styleEqual] at hcy
              exact absurd hcy he
          rw [hyne]
          simp only [Bool.and_false, Bool.not_false, Bool.true_and]
          exact ihn.1
        · simp only [List.headD_cons]
          rw [mkRange_styleEqual]
          exact areStylesEqual_refl cur

theorem lineRanges_noAdj (st : ThemeState) (tm : List TmToken) (sem : List (Nat × SemSpan))
    (i : Nat) (text : Str) : noAdjacentEqual (lineRanges st tm sem i text) = true := by
  unfold lineRanges
  by_cases hL : text.length = 0
  · simp [hL, noAdjacentEqual]
  · simp only [hL, if_false]
    exact (compress_noAdj i text _ 1 0 _).1

theorem noAdjacentEqual_append :
    ∀ (xs ys : List StyledRange),
      noAdjacentEqual xs = true → noAdjacentEqual ys = true →
      (∀ x y, xs.getLast? = some x → ys.head? = some y →
        (x.startLine == y.startLine && rangesStyleEqual x y) = false) →
      noAdjacentEqual (xs ++ ys) = true := by
  intro xs
  induction xs with
  | nil => intro ys _ hy _; simpa using hy
  | cons x rest ih =>
    intro ys hx hy hlink
    cases rest with
    | nil =>
      cases ys with
      | nil => rfl
      | cons y t =>
        simp only [List.singleton_append, noAdjacentEqual]
        rw [hlink x y rfl rfl]
        simpa using hy
    | cons x2 rest2 =>
      simp only [noAdjacentEqual, Bool.and_eq_true] at hx
      simp only [List.cons_append, noAdjacentEqual, List.cons_append, Bool.and_eq_true]
      refine ⟨hx.1, ?_⟩
      exact ih ys hx.2 hy (fun a b ha hb => hlink a b (by
        rw [List.getLast?_cons_cons]
        exact ha) hb)

theorem mem_of_getLast? : ∀ (l : List StyledRange) (x : StyledRange),
    l.getLast? = some x → x ∈ l := by
  intro l
  induction l with
  | nil => intro x h; cases h
  | cons a t ih =>
    intro x h
    cases t with
    | nil =>
      simp only [List.getLast?_singleton, Option.some.injEq] at h
      subst h
      exact List.mem_singleton.mpr rfl
    | cons b t2 =>
      rw [List.getLast?_cons_cons] at h
      exact List.mem_cons_of_mem a (ih x h)

theorem mem_of_head? (l : List StyledRange) (x : StyledRange) (h : l.head? = some x) :
    x ∈ l := by
  cases l with
  | nil => cases h
  | cons a t =>
    simp only [List.head?_cons, Option.some.injEq] at h
    subst h
    exact List.mem_cons_self a t

theorem mergeRaw_blocks_noAdj (st : ThemeState) (tm : List TmToken)
    (sem : List (Nat × SemSpan)) :
    ∀ (lines : List Str) (n : Nat),
      noAdjacentEqual
        (((enumFrom n lines).map fun p => lineRanges st tm sem p.1 p.2).flatten) = true := by
  intro lines
  induction lines with
  | nil => intro n; rfl
  | cons text rest ih =>
    intro n
    rw [show enumFrom n (text :: rest) = (n, text) :: enumFrom (n + 1) rest from rfl,
      List.map_cons, List.flatten_cons]
    apply noAdjacentEqual_append
    · exact lineRanges_noAdj st tm sem n text
    · exact ih (n + 1)
    · intro x y hx hy
      have hxm : x ∈ lineRanges st tm sem n text := mem_of_getLast? _ x hx
      have hym : y ∈
          (((enumFrom (n + 1) rest).map fun p => lineRanges st tm sem p.1 p.2).flatten) :=
        mem_of_head? _ y hy
      have hxl : x.startLine = n := (lineRanges_facts st tm sem n text x hxm).1
      obtain ⟨bl, hbl, hyb⟩ := List.mem_flatten.mp hym
      obtain ⟨p, hp, hpb⟩ := List.mem_map.mp hbl
      rw [← hpb] at hyb
      have hyl : y.startLine = p.1 := (lineRanges_facts st tm sem p.1 p.2 y hyb).1
      have hge : n + 1 ≤ p.1 := (enumFrom_mem rest (n + 1) p hp).1
      have hne : (x.startLine == y.startLine) = false := by
        rw [hxl, hyl]
        simp only [beq_eq_false_iff_ne, ne_eq]
        omega
      rw [hne]
      rfl

theorem compress_starts (i : Nat) (text : Str) :
    ∀ (styles : List ResolvedStyle) (k a : Nat) (cur : ResolvedStyle),
      (compressGo i text k a cur styles).map (fun r => r.startChar) =
        a :: bdries k cur styles := by
  intro styles
  induction styles with
  | nil => intro k a cur; rfl
  | cons next rest ih =>
    intro k a cur
    simp only [compressGo, bdries]
    by_cases he : areStylesEqual cur next = true
    · rw [if_pos he, if_pos he]
      exact ih (k + 1) a cur
    · rw [if_neg he, if_neg he]
      simp only [List.map_cons]
      rw [ih (k + 1) k next]
      rfl

theorem bdries_filter (styleAt : Nat → ResolvedStyle) :
    ∀ (n k0 : Nat) (cur : ResolvedStyle), 1 ≤ k0 →
      areStylesEqual (styleAt (k0 - 1)) cur = true →
      bdries k0 cur ((natsFrom k0 n).map styleAt) =
        (natsFrom k0 n).filter (fun m => !areStylesEqual (styleAt (m - 1)) (styleAt m)) := by
  intro n
  induction n with
  | zero => intro k0 cur _ _; rfl
  | succ n ih =>
    intro k0 cur hk0 hprev
    simp only [natsFrom, List.map_cons, bdries, List.filter_cons]
    by_cases he : areStylesEqual cur (styleAt k0) = true
    · rw [if_pos he]
      have ht : areStylesEqual (styleAt (k0 - 1)) (styleAt k0) = true :=
        areStylesEqual_trans _ _ _ hprev he
      rw [show (!areStylesEqual (styleAt (k0 - 1)) (styleAt k0)) = false by rw [ht]; rfl]
      simp only [Bool.false_eq_true, if_false]
      exact ih (k0 + 1) cur (by omega) (by simpa using areStylesEqual_symm _ _ he)
    · rw [if_neg he]
      have hne : areStylesEqual (styleAt (k0 - 1)) (styleAt k0) = false := by
        cases hb : areStylesEqual (styleAt (k0 - 1)) (styleAt k0) with
        | false => rfl
        | true =>
          exact absurd (areStylesEqual_trans _ _ _ (areStylesEqual_symm _ _ hprev) hb) he
      rw [show (!areStylesEqual (styleAt (k0 - 1)) (styleAt k0)) = true by rw [hne]; rfl]
      simp only [if_true]
      congr 1
      exact ih (k0 + 1) (styleAt k0) (by omega) (by simpa using areStylesEqual_refl (styleAt k0))

theorem mergeRaw_filter (st : ThemeState) (tm : List TmToken) (sem : List (Nat × SemSpan))
    (i : Nat) :
    ∀ (lines : List Str) (n : Nat),
      ((i < n ∨ n + lines.length ≤ i) →
        lineFilter (((enumFrom n lines).map fun p => lineRanges st tm sem p.1 p.2).flatten) i
          = []) ∧
      (n ≤ i → i < n + lines.length →
        lineFilter (((enumFrom n lines).map fun p => lineRanges st tm sem p.1 p.2).flatten) i
          = lineRanges st tm sem i (lines.getD (i - n) [])) := by
  intro lines
  induction lines with
  | nil =>
    intro n
    refine ⟨fun _ => rfl, fun h1 h2 => ?_⟩
    simp only [List.length_nil, Nat.add_zero] at h2
    exact absurd h2 (by omega)
  | cons text rest ih =>
    intro n
    have hsplit : lineFilter (((enumFrom n (text :: rest)).map
        fun p => lineRanges st tm sem p.1 p.2).flatten) i =
        lineFilter (lineRanges st tm sem n text) i ++
        lineFilter (((enumFrom (n + 1) rest).map
          fun p => lineRanges st tm sem p.1 p.2).flatten) i := by
      rw [show enumFrom n (text :: rest) = (n, text) :: enumFrom (n + 1) rest from rfl,
        List.map_cons, List.flatten_cons, lineFilter_append]
    have hblock : ∀ r ∈ lineRanges st tm sem n text, r.startLine = n :=
      fun r hr => (lineRanges_facts st tm sem n text r hr).1
    constructor
    · intro h
      rw [hsplit, lineFilter_all_other _ n i hblock (by simp at h; omega),
        (ih (n + 1)).1 (by simp at h ⊢; omega)]
      rfl
    · intro h1 h2
      by_cases hin : i = n
      · subst hin
        rw [hsplit, lineFilter_all_self _ i hblock, (ih (i + 1)).1 (by omega),
          List.append_nil]
        simp
      · have hni : n + 1 ≤ i := by omega
        rw [hsplit, lineFilter_all_other _ n i hblock (Ne.symm hin), List.nil_append,
          (ih (n + 1)).2 hni (by simp at h2 ⊢; omega)]
        have hs : i - n = (i - (n + 1)) + 1 := by omega
        rw [hs, List.getD_cons_succ]

/-- C4 is refuted on the code: after the bracket pass on the two-character
input of an opening and a closing parenthesis, merge emits two adjacent
same-line ranges agreeing on foreground, font style, provenance, matched
index and trace (both brackets receive the same depth-0 palette color and
the same appended trace entry). -/
theorem C4_counterexample :
    noAdjacentEqual (merge exETheme "()".toList [exTok 0 2] none none) = false ∧
    (merge exETheme "()".toList [exTok 0 2] none none).length = 2 := by
  refine ⟨by decide, by decide⟩

/-- C4 (amended): in the output of the compression stage (mergeRaw, before
the bracket pass), no two adjacent StyledRanges on the same line are
identical in all of foreground, font style, provenance, matched index and
trace, and each line's run boundaries sit exactly at the positions whose
resolved style differs (by that same deep equality) from the previous
character's. -/
theorem C4_amended_compression (st : ThemeState) (content : Str) (tm : List TmToken)
    (semData : Option (List SemTok5)) (legend : Option Legend) :
    noAdjacentEqual (mergeRaw st content tm semData legend) = true ∧
    (∀ i, i < (splitLines content).length → 0 < (lineOf content i).length →
      (lineFilter (mergeRaw st content tm semData legend) i).map (fun r => r.startChar) =
        0 :: (natsFrom 1 ((lineOf content i).length - 1)).filter
          (fun k => !areStylesEqual
            (lineStyleAt st tm (parseSemanticTokens semData legend) i
              (lineOf content i).length (k - 1))
            (lineStyleAt st tm (parseSemanticTokens semData legend) i
              (lineOf content i).length k))) := by
  constructor
  · exact mergeRaw_blocks_noAdj st tm (parseSemanticTokens semData legend)
      (splitLines content) 0
  · intro i hi hL
    have hf := (mergeRaw_filter st tm (parseSemanticTokens semData legend) i
      (splitLines content) 0).2 (by omega) (by omega)
    have hid : mergeRaw st content tm semData legend =
        ((enumFrom 0 (splitLines content)).map
          fun p => lineRanges st tm (parseSemanticTokens semData legend) p.1 p.2).flatten :=
      rfl
    rw [hid, hf]
    rw [show (splitLines content).getD (i - 0) [] = lineOf content i by simp [lineOf]]
    simp only [lineRanges]
    rw [if_neg (by omega)]
    rw [compress_starts]
    congr 1
    exact bdries_filter
      (lineStyleAt st tm (parseSemanticTokens semData legend) i (lineOf content i).length)
      ((lineOf content i).length - 1) 1 _ (by omega)
      (by simpa using areStylesEqual_refl _)

/-- C4 witness: the amended theorem applied at a concrete one-line input. -/
theorem C4_amended_witness :
    noAdjacentEqual (mergeRaw exETheme "ab".toList [exTok 0 2] none none) = true ∧
    (lineFilter (mergeRaw exETheme "ab".toList [exTok 0 2] none none) 0).map
      (fun r => r.startChar) = [0] := by
  have h := C4_amended_compression exETheme "ab".toList [exTok 0 2] none none
  refine ⟨h.1, ?_⟩
  rw [h.2 0 (by decide) (by decide)]
  decide
